import Mathlib

/-!
A shallow embedding of the GoFig change-resolution engine (src/change.go),
together with the serialization layer and the structural diff/patch
primitive that the engine calls.  Values of the document database are
JSON-like trees; Go maps are represented by key-sorted association lists
(the canonical form Go's json.Marshal produces, which is the form the
diff/patch machinery actually operates on).
-/

/-- Character strings, represented as lists of characters so that the
sentinel-wrapping arithmetic of the serialization layer can be reasoned
about with list lemmas. -/
abbrev Str := List Char

/-- Lexicographic order on character lists by character code, mirroring
Go's bytewise string order on the keys the engine handles. -/
def strLtB : Str → Str → Bool
  | [], [] => false
  | [], _ :: _ => true
  | _ :: _, [] => false
  | a :: as, b :: bs =>
      if a.toNat < b.toNat then true
      else if b.toNat < a.toNat then false
      else strLtB as bs

/-- Lexicographic order on string keys. -/
def keyLt (a b : String) : Bool := strLtB a.data b.data

theorem strLtB_irrefl : ∀ s, strLtB s s = false
  | [] => rfl
  | a :: as => by simp [strLtB, strLtB_irrefl as]

theorem strLtB_trans : ∀ {a b c : Str},
    strLtB a b = true → strLtB b c = true → strLtB a c = true := by
  intro a
  induction a with
  | nil =>
      intro b c hab hbc
      cases b <;> cases c <;> simp_all [strLtB]
  | cons x xs ih =>
      intro b c hab hbc
      cases b with
      | nil => simp [strLtB] at hab
      | cons y ys =>
          cases c with
          | nil => simp [strLtB] at hbc
          | cons z zs =>
              simp only [strLtB] at hab hbc ⊢
              rcases Nat.lt_trichotomy x.toNat y.toNat with h1 | h1 | h1
              · rcases Nat.lt_trichotomy y.toNat z.toNat with h2 | h2 | h2
                · rw [if_pos (show x.toNat < z.toNat by omega)]
                · rw [if_pos (show x.toNat < z.toNat by omega)]
                · rw [if_neg (show ¬ y.toNat < z.toNat by omega), if_pos h2] at hbc
                  exact absurd hbc (by simp)
              · rcases Nat.lt_trichotomy y.toNat z.toNat with h2 | h2 | h2
                · rw [if_pos (show x.toNat < z.toNat by omega)]
                · rw [if_neg (show ¬ x.toNat < z.toNat by omega),
                    if_neg (show ¬ z.toNat < x.toNat by omega)]
                  rw [if_neg (show ¬ x.toNat < y.toNat by omega),
                    if_neg (show ¬ y.toNat < x.toNat by omega)] at hab
                  rw [if_neg (show ¬ y.toNat < z.toNat by omega),
                    if_neg (show ¬ z.toNat < y.toNat by omega)] at hbc
                  exact ih hab hbc
                · rw [if_neg (show ¬ y.toNat < z.toNat by omega), if_pos h2] at hbc
                  exact absurd hbc (by simp)
              · rw [if_neg (show ¬ x.toNat < y.toNat by omega), if_pos h1] at hab
                exact absurd hab (by simp)

theorem strLtB_conn : ∀ {a b : Str},
    strLtB a b = false → strLtB b a = false → a = b := by
  intro a
  induction a with
  | nil =>
      intro b hab hba
      cases b <;> simp_all [strLtB]
  | cons x xs ih =>
      intro b hab hba
      cases b with
      | nil => simp [strLtB] at hba
      | cons y ys =>
          simp only [strLtB] at hab hba
          rcases Nat.lt_trichotomy x.toNat y.toNat with h1 | h1 | h1
          · rw [if_pos h1] at hab
            exact absurd hab (by simp)
          · have hnxy : ¬ x.toNat < y.toNat := by omega
            have hnyx : ¬ y.toNat < x.toNat := by omega
            rw [if_neg hnxy, if_neg hnyx] at hab
            rw [if_neg hnyx, if_neg hnxy] at hba
            have hx : x = y := Char.eq_of_val_eq (UInt32.toNat.inj h1)
            exact congrArg₂ List.cons hx (ih hab hba)
          · rw [if_pos h1] at hba
            exact absurd hba (by simp)

/-- Canonical JSON-safe values: primitives, ordered sequences and
string-keyed mappings.  Mappings are key-sorted association lists. -/
inductive Canon where
  | null
  | bool (b : Bool)
  | num (n : Int)
  | str (s : Str)
  | arr (xs : List Canon)
  | obj (fs : List (String × Canon))

/-- Rich values of the document layer: JSON-like values extended with
timestamps (represented by their RFC-3339 rendering), opaque document
references, and the delete marker. -/
inductive Rich where
  | null
  | bool (b : Bool)
  | num (n : Int)
  | str (s : Str)
  | arr (xs : List Rich)
  | obj (fs : List (String × Rich))
  | time (t : Str)
  | ref (path : Str)
  | deleteMarker

mutual

/-- Boolean equality on canonical values. -/
def Canon.beq : Canon → Canon → Bool
  | .null, .null => true
  | .bool a, .bool b => a == b
  | .num a, .num b => a == b
  | .str a, .str b => a == b
  | .arr a, .arr b => Canon.beqList a b
  | .obj a, .obj b => Canon.beqFields a b
  | _, _ => false

/-- Boolean equality on lists of canonical values. -/
def Canon.beqList : List Canon → List Canon → Bool
  | [], [] => true
  | a :: as, b :: bs => Canon.beq a b && Canon.beqList as bs
  | _, _ => false

/-- Boolean equality on canonical field lists. -/
def Canon.beqFields : List (String × Canon) → List (String × Canon) → Bool
  | [], [] => true
  | (ka, va) :: as, (kb, vb) :: bs =>
      ka == kb && Canon.beq va vb && Canon.beqFields as bs
  | _, _ => false

end

theorem Canon.beq_iff_aux : ∀ n : Nat,
    (∀ a b : Canon, sizeOf a ≤ n → (Canon.beq a b = true ↔ a = b)) ∧
    (∀ as bs : List Canon, sizeOf as ≤ n → (Canon.beqList as bs = true ↔ as = bs)) ∧
    (∀ fs gs : List (String × Canon), sizeOf fs ≤ n →
      (Canon.beqFields fs gs = true ↔ fs = gs)) := by
  intro n
  induction n using Nat.strong_induction_on with
  | _ n ih =>
    refine ⟨?_, ?_, ?_⟩
    · intro a b ha
      cases a <;> cases b <;> simp [Canon.beq]
      · case arr.arr xs ys =>
        have hxs : sizeOf xs < sizeOf (Canon.arr xs) := by
          simp only [Canon.arr.sizeOf_spec]; omega
        exact (ih _ (lt_of_lt_of_le hxs ha)).2.1 xs ys (le_refl _)
      · case obj.obj xs ys =>
        have hxs : sizeOf xs < sizeOf (Canon.obj xs) := by
          simp only [Canon.obj.sizeOf_spec]; omega
        exact (ih _ (lt_of_lt_of_le hxs ha)).2.2 xs ys (le_refl _)
    · intro as bs ha
      cases as <;> cases bs <;> simp [Canon.beqList]
      case cons.cons x xs y ys =>
        have hx : sizeOf x < sizeOf (x :: xs) := by
          simp only [List.cons.sizeOf_spec]; omega
        have hxs : sizeOf xs < sizeOf (x :: xs) := by
          simp only [List.cons.sizeOf_spec]; omega
        rw [(ih _ (lt_of_lt_of_le hx ha)).1 x y (le_refl _),
          (ih _ (lt_of_lt_of_le hxs ha)).2.1 xs ys (le_refl _)]
    · intro fs gs ha
      cases fs <;> cases gs <;> simp [Canon.beqFields]
      case cons.cons x xs y ys =>
        obtain ⟨kx, vx⟩ := x
        obtain ⟨ky, vy⟩ := y
        have hx : sizeOf vx < sizeOf ((kx, vx) :: xs) := by
          simp only [List.cons.sizeOf_spec, Prod.mk.sizeOf_spec]; omega
        have hxs : sizeOf xs < sizeOf ((kx, vx) :: xs) := by
          simp only [List.cons.sizeOf_spec]; omega
        simp [(ih _ (lt_of_lt_of_le hx ha)).1 vx vy (le_refl _),
          (ih _ (lt_of_lt_of_le hxs ha)).2.2 xs ys (le_refl _), and_assoc]

theorem Canon.beq_iff (a b : Canon) : Canon.beq a b = true ↔ a = b :=
  (Canon.beq_iff_aux (sizeOf a)).1 a b (le_refl _)

instance : DecidableEq Canon := fun a b => decidable_of_iff _ (Canon.beq_iff a b)

mutual

/-- Boolean equality on rich values. -/
def Rich.beq : Rich → Rich → Bool
  | .null, .null => true
  | .bool a, .bool b => a == b
  | .num a, .num b => a == b
  | .str a, .str b => a == b
  | .arr a, .arr b => Rich.beqList a b
  | .obj a, .obj b => Rich.beqFields a b
  | .time a, .time b => a == b
  | .ref a, .ref b => a == b
  | .deleteMarker, .deleteMarker => true
  | _, _ => false

/-- Boolean equality on lists of rich values. -/
def Rich.beqList : List Rich → List Rich → Bool
  | [], [] => true
  | a :: as, b :: bs => Rich.beq a b && Rich.beqList as bs
  | _, _ => false

/-- Boolean equality on rich field lists. -/
def Rich.beqFields : List (String × Rich) → List (String × Rich) → Bool
  | [], [] => true
  | (ka, va) :: as, (kb, vb) :: bs =>
      ka == kb && Rich.beq va vb && Rich.beqFields as bs
  | _, _ => false

end

theorem Rich.beq_spec_aux : ∀ n : Nat,
    (∀ a b : Rich, sizeOf a ≤ n → (Rich.beq a b = true ↔ a = b)) ∧
    (∀ as bs : List Rich, sizeOf as ≤ n → (Rich.beqList as bs = true ↔ as = bs)) ∧
    (∀ fs gs : List (String × Rich), sizeOf fs ≤ n →
      (Rich.beqFields fs gs = true ↔ fs = gs)) := by
  intro n
  induction n using Nat.strong_induction_on with
  | _ n ih =>
    refine ⟨?_, ?_, ?_⟩
    · intro a b ha
      cases a <;> cases b <;> simp [Rich.beq]
      · case arr.arr xs ys =>
        have hxs : sizeOf xs < sizeOf (Rich.arr xs) := by
          simp only [Rich.arr.sizeOf_spec]; omega
        exact (ih _ (lt_of_lt_of_le hxs ha)).2.1 xs ys (le_refl _)
      · case obj.obj xs ys =>
        have hxs : sizeOf xs < sizeOf (Rich.obj xs) := by
          simp only [Rich.obj.sizeOf_spec]; omega
        exact (ih _ (lt_of_lt_of_le hxs ha)).2.2 xs ys (le_refl _)
    · intro as bs ha
      cases as <;> cases bs <;> simp [Rich.beqList]
      case cons.cons x xs y ys =>
        have hx : sizeOf x < sizeOf (x :: xs) := by
          simp only [List.cons.sizeOf_spec]; omega
        have hxs : sizeOf xs < sizeOf (x :: xs) := by
          simp only [List.cons.sizeOf_spec]; omega
        rw [(ih _ (lt_of_lt_of_le hx ha)).1 x y (le_refl _),
          (ih _ (lt_of_lt_of_le hxs ha)).2.1 xs ys (le_refl _)]
    · intro fs gs ha
      cases fs <;> cases gs <;> simp [Rich.beqFields]
      case cons.cons x xs y ys =>
        obtain ⟨kx, vx⟩ := x
        obtain ⟨ky, vy⟩ := y
        have hx : sizeOf vx < sizeOf ((kx, vx) :: xs) := by
          simp only [List.cons.sizeOf_spec, Prod.mk.sizeOf_spec]; omega
        have hxs : sizeOf xs < sizeOf ((kx, vx) :: xs) := by
          simp only [List.cons.sizeOf_spec]; omega
        simp [(ih _ (lt_of_lt_of_le hx ha)).1 vx vy (le_refl _),
          (ih _ (lt_of_lt_of_le hxs ha)).2.2 xs ys (le_refl _), and_assoc]

theorem Rich.beq_spec (a b : Rich) : Rich.beq a b = true ↔ a = b :=
  (Rich.beq_spec_aux (sizeOf a)).1 a b (le_refl _)

instance : DecidableEq Rich := fun a b => decidable_of_iff _ (Rich.beq_spec a b)

/-- Fields of a rich document (a Go map[string]any holding rich values). -/
abbrev RFields := List (String × Rich)

/-- Fields of a canonical document. -/
abbrev CFields := List (String × Canon)

/-- The sentinel delimiter for timestamps, the characters of the literal
of spec section 6. -/
def timeTag : Str := ['<', 't', 'i', 'm', 'e', '>']

/-- The sentinel delimiter for document references, the characters of the
literal of spec section 6. -/
def refTag : Str := ['<', 'r', 'e', 'f', '>']

/-- The full sentinel literal of the delete marker, the characters of the
literal of spec section 6. -/
def deleteLit : Str :=
  ['<', 'd', 'e', 'l', 'e', 't', 'e', '>', '!', 'd', 'e', 'l', 'e', 't', 'e',
   '<', 'd', 'e', 'l', 'e', 't', 'e', '>']

/-- Does `s` consist of `tag`, a payload, and `tag` again? -/
def wrapped (tag s : Str) : Bool :=
  decide (2 * tag.length ≤ s.length) &&
    s.take tag.length == tag &&
    s.drop (s.length - tag.length) == tag

/-- The payload between the two copies of `tag`. -/
def unwrap (tag s : Str) : Str :=
  (s.drop tag.length).take (s.length - 2 * tag.length)

mutual

/-- Modelled from the spec: `SerializeData`, the serialization layer of
spec sections 4.1 and 6 (its Go source is not under src/).  It converts a
rich value to its canonical JSON-safe form: timestamps become their
RFC-3339 text wrapped in the `<time>` sentinel, document references their
path wrapped in `<ref>`, the delete marker the fixed `<delete>!delete<delete>`
literal; sequences and mappings recurse and primitives pass through
unchanged.  (The Go function also receives the database client, which is
used only to recognise reference objects and plays no part in the value
transformation, so it is omitted here.) -/
def SerializeData : Rich → Canon
  | .null => .null
  | .bool b => .bool b
  | .num n => .num n
  | .str s => .str s
  | .arr xs => .arr (serializeList xs)
  | .obj fs => .obj (serializeFields fs)
  | .time t => .str (timeTag ++ t ++ timeTag)
  | .ref p => .str (refTag ++ p ++ refTag)
  | .deleteMarker => .str deleteLit

/-- Elementwise serialization of a sequence. -/
def serializeList : List Rich → List Canon
  | [] => []
  | x :: xs => SerializeData x :: serializeList xs

/-- Fieldwise serialization of a mapping. -/
def serializeFields : RFields → CFields
  | [] => []
  | (k, v) :: fs => (k, SerializeData v) :: serializeFields fs

end

/-- Modelled from the spec: how `DeSerializeData` classifies a canonical
string on the way out — the exact inverse of the three sentinel encodings,
falling back to a plain string.  A user string that happens to match a
sentinel format is mistaken for the extension value, the accepted
limitation documented in spec section 4.1. -/
def deStr (s : Str) : Rich :=
  if s = deleteLit then .deleteMarker
  else if wrapped timeTag s then .time (unwrap timeTag s)
  else if wrapped refTag s then .ref (unwrap refTag s)
  else .str s

mutual

/-- Modelled from the spec: `DeSerializeData` (its Go source is not under
src/), the inverse direction of the serialization layer: tagged string
sentinels become the corresponding extension values, everything else is
mapped back identically. -/
def DeSerializeData : Canon → Rich
  | .null => .null
  | .bool b => .bool b
  | .num n => .num n
  | .str s => deStr s
  | .arr xs => .arr (deserializeList xs)
  | .obj fs => .obj (deserializeFields fs)

/-- Elementwise deserialization of a sequence. -/
def deserializeList : List Canon → List Rich
  | [] => []
  | x :: xs => DeSerializeData x :: deserializeList xs

/-- Fieldwise deserialization of a mapping. -/
def deserializeFields : CFields → RFields
  | [] => []
  | (k, v) :: fs => (k, DeSerializeData v) :: deserializeFields fs

end

/-- Strict key-sortedness of an association list, the canonical form that
Go's json.Marshal produces for a map (keys sorted, no duplicates). -/
def keySorted {α : Type} : List (String × α) → Bool
  | [] => true
  | [_] => true
  | a :: b :: t => keyLt a.1 b.1 && keySorted (b :: t)

mutual

/-- Well-formedness of a canonical value: every mapping in it is a
key-sorted association list (the representation invariant of this
embedding; see `keySorted`). -/
def Canon.wfB : Canon → Bool
  | .arr xs => Canon.wfListB xs
  | .obj fs => keySorted fs && Canon.wfFieldsB fs
  | _ => true

/-- Well-formedness of a list of canonical values. -/
def Canon.wfListB : List Canon → Bool
  | [] => true
  | x :: xs => x.wfB && Canon.wfListB xs

/-- Well-formedness of the values of a canonical field list. -/
def Canon.wfFieldsB : List (String × Canon) → Bool
  | [] => true
  | (_, v) :: fs => v.wfB && Canon.wfFieldsB fs

end

mutual

/-- Well-formedness of a rich value: every mapping in it is a key-sorted
association list. -/
def Rich.wfB : Rich → Bool
  | .arr xs => Rich.wfListB xs
  | .obj fs => keySorted fs && Rich.wfFieldsB fs
  | _ => true

/-- Well-formedness of a list of rich values. -/
def Rich.wfListB : List Rich → Bool
  | [] => true
  | x :: xs => x.wfB && Rich.wfListB xs

/-- Well-formedness of the values of a rich field list. -/
def Rich.wfFieldsB : List (String × Rich) → Bool
  | [] => true
  | (_, v) :: fs => v.wfB && Rich.wfFieldsB fs

end

mutual

/-- A canonical value is null-free when the JSON value `null` occurs
nowhere in it (and it is not `null` itself). -/
def Canon.nfB : Canon → Bool
  | .null => false
  | .arr xs => Canon.nfListB xs
  | .obj fs => Canon.nfFieldsB fs
  | _ => true

/-- Null-freedom of a list of canonical values. -/
def Canon.nfListB : List Canon → Bool
  | [] => true
  | x :: xs => x.nfB && Canon.nfListB xs

/-- Null-freedom of the values of a canonical field list. -/
def Canon.nfFieldsB : List (String × Canon) → Bool
  | [] => true
  | (_, v) :: fs => v.nfB && Canon.nfFieldsB fs

end

mutual

/-- A rich value is null-free when the primitive `null` occurs nowhere in
it (and it is not `null` itself). -/
def Rich.nfB : Rich → Bool
  | .null => false
  | .arr xs => Rich.nfListB xs
  | .obj fs => Rich.nfFieldsB fs
  | _ => true

/-- Null-freedom of a list of rich values. -/
def Rich.nfListB : List Rich → Bool
  | [] => true
  | x :: xs => x.nfB && Rich.nfListB xs

/-- Null-freedom of the values of a rich field list. -/
def Rich.nfFieldsB : List (String × Rich) → Bool
  | [] => true
  | (_, v) :: fs => v.nfB && Rich.nfFieldsB fs

end

/-- A plain string is sentinel-free when it does not itself look like one
of the three sentinel encodings. -/
def plainStr (s : Str) : Bool :=
  !(s == deleteLit) && !wrapped timeTag s && !wrapped refTag s

mutual

/-- A rich value is sentinel-free when every plain string in it is
sentinel-free (spec section 4.1 documents collision with such user strings
as an accepted limitation of the serialization layer). -/
def Rich.plainB : Rich → Bool
  | .str s => plainStr s
  | .arr xs => Rich.plainListB xs
  | .obj fs => Rich.plainFieldsB fs
  | _ => true

/-- Sentinel-freedom of a list of rich values. -/
def Rich.plainListB : List Rich → Bool
  | [] => true
  | x :: xs => x.plainB && Rich.plainListB xs

/-- Sentinel-freedom of the values of a rich field list. -/
def Rich.plainFieldsB : List (String × Rich) → Bool
  | [] => true
  | (_, v) :: fs => v.plainB && Rich.plainFieldsB fs

end

mutual

/-- Modelled from the spec: `ApplyDiffPatch`, the structural patch-apply
primitive (its Go source is not under src/).  The spec (section 4.2 step 1
and scenarios A and B) applies a plain field mapping directly as the patch
payload and requires the same patch language in the apply and diff
directions, which fixes whole-document JSON merge semantics: a mapping
patch updates the target field-by-field, `null` removing a field, and any
non-mapping patch replaces the target wholesale.  Both documents are
key-sorted (the form json.Marshal hands the primitive). -/
def ApplyDiffPatch : Canon → Canon → Canon
  | .obj ft, .obj fp => .obj (applyFields ft fp)
  | _, .obj fp => .obj (applyFields [] fp)
  | _, p => p
termination_by structural t p => p

/-- Fieldwise merge-patch application over key-sorted field lists: target
entries below the next patch key are kept, a patch entry then removes,
merges with, or inserts at its key. -/
def applyFields : CFields → CFields → CFields
  | ft, [] => ft
  | ft, (kp, vp) :: ps =>
      let keep := ft.takeWhile (fun e => keyLt e.1 kp)
      let rest := ft.dropWhile (fun e => keyLt e.1 kp)
      keep ++
        match rest with
        | (ka, va) :: fal =>
            if ka = kp then
              if vp = .null then applyFields fal ps
              else (kp, ApplyDiffPatch va vp) :: applyFields fal ps
            else
              if vp = .null then applyFields rest ps
              else (kp, ApplyDiffPatch .null vp) :: applyFields rest ps
        | [] =>
            if vp = .null then applyFields [] ps
            else (kp, ApplyDiffPatch .null vp) :: applyFields [] ps
termination_by structural ft fp => fp

end

mutual

/-- Modelled from the spec: `GetDiffPatch`, the structural diff primitive
(its Go source is not under src/): it computes the whole-document merge
patch that transforms the first document into the second, the direction
used by spec section 4.2 step 4 with after and before. -/
def GetDiffPatch : Canon → Canon → Canon
  | .obj fa, .obj fb => .obj (diffFields fa fb)
  | _, b => b
termination_by structural a b => b

/-- Fieldwise merge-patch computation over key-sorted field lists: keys of
the first document below the next key of the second become removals, the
next key is then a merge or an insertion. -/
def diffFields : CFields → CFields → CFields
  | fa, [] => fa.map (fun e => (e.1, Canon.null))
  | fa, (kb, vb) :: bs =>
      let rem := fa.takeWhile (fun e => keyLt e.1 kb)
      let rest := fa.dropWhile (fun e => keyLt e.1 kb)
      rem.map (fun e => (e.1, Canon.null)) ++
        match rest with
        | (ka, va) :: fal =>
            if ka = kb then
              if va = vb then diffFields fal bs
              else (kb, GetDiffPatch va vb) :: diffFields fal bs
            else (kb, vb) :: diffFields rest bs
        | [] => (kb, vb) :: diffFields [] bs
termination_by structural fa fb => fb

end

mutual

/-- Rendering of a canonical value as JSON text, the form in which values
appear inside the human-readable diff. -/
def jsonStr : Canon → Str
  | .null => "null".data
  | .bool true => "true".data
  | .bool false => "false".data
  | .num n => (toString n).data
  | .str s => '"' :: (s ++ ['"'])
  | .arr xs => '[' :: (jsonStrList xs ++ [']'])
  | .obj fs => '\x7b' :: (jsonStrFields fs ++ ['\x7d'])

/-- JSON rendering of the elements of a sequence. -/
def jsonStrList : List Canon → Str
  | [] => []
  | [x] => jsonStr x
  | x :: y :: xs => jsonStr x ++ (',' :: jsonStrList (y :: xs))

/-- JSON rendering of the fields of a mapping. -/
def jsonStrFields : CFields → Str
  | [] => []
  | [(k, v)] => '"' :: (k.data ++ ('"' :: (':' :: jsonStr v)))
  | (k, v) :: f :: fs =>
      ('"' :: (k.data ++ ('"' :: (':' :: jsonStr v)))) ++ (',' :: jsonStrFields (f :: fs))

end

/-- Modelled from the spec: the recursive walk of `PrettyDiff` (its Go
source is not under src/): a display-oriented rendering of the added,
removed and changed keys between two key-sorted serialized mappings (spec
section 4.2 step 3).  Values are rendered in their canonical JSON form, so
sentinel-encoded extension values appear here in their tagged, quoted
form. -/
def prettyDiffFields : CFields → CFields → Str
  | fa, [] =>
      fa.flatMap (fun e => "- ".data ++ e.1.data ++ ": ".data ++ jsonStr e.2 ++ ['\n'])
  | fa, (kb, vb) :: bs =>
      let rem := fa.takeWhile (fun e => keyLt e.1 kb)
      let rest := fa.dropWhile (fun e => keyLt e.1 kb)
      rem.flatMap (fun e => "- ".data ++ e.1.data ++ ": ".data ++ jsonStr e.2 ++ ['\n']) ++
        match rest with
        | (ka, va) :: fal =>
            if ka = kb then
              (if va = vb then [] else
                "~ ".data ++ kb.data ++ ": ".data ++ jsonStr va ++ " -> ".data ++
                  jsonStr vb ++ ['\n']) ++ prettyDiffFields fal bs
            else
              "+ ".data ++ kb.data ++ ": ".data ++ jsonStr vb ++ ['\n'] ++
                prettyDiffFields rest bs
        | [] =>
            "+ ".data ++ kb.data ++ ": ".data ++ jsonStr vb ++ ['\n'] ++
              prettyDiffFields [] bs
termination_by structural fa fb => fb

/-- Modelled from the spec: `PrettyDiff` on the serialized before and
after mappings. -/
def PrettyDiff (sBefore sAfter : CFields) : Str :=
  prettyDiffFields sBefore sAfter

/-- Fuel-indexed worker for removeAll: each step consumes at least one
character of the subject and one unit of fuel, so fuel equal to the
subject length never runs out. -/
def removeAllFuel (pat : Str) : Nat → Str → Str
  | _, [] => []
  | 0, s => s
  | n + 1, c :: cs =>
      if pat ≠ [] ∧ pat = (c :: cs).take pat.length then
        removeAllFuel pat n ((c :: cs).drop pat.length)
      else c :: removeAllFuel pat n cs

/-- Go's strings.Replace with the empty replacement string: removes every
leftmost, non-overlapping occurrence of `pat` from the subject. -/
def removeAll (pat s : Str) : Str :=
  removeAllFuel pat s.length s

/-- Occurrence test: whether `pat` occurs contiguously somewhere inside
the subject string; used only to state properties of the rendered
presentation. -/
def hasSub (pat : Str) : Str → Bool
  | [] => decide (pat = [])
  | c :: cs => decide (pat = (c :: cs).take pat.length) || hasSub pat cs

/-- Command is an enum of supported Change command types (src/change.go). -/
inductive Command where
  | MigratorUnknown
  | MigratorUpdate
  | MigratorSet
  | MigratorAdd
  | MigratorDelete
deriving DecidableEq

/-- The database operation one execution of a Change dispatches to the
external database client: exactly one of the three interface calls of
spec section 6, together with its payload. -/
inductive DbOp where
  | UpdateDoc (path : String) (data : Option RFields)
  | SetDoc (path : String) (data : Option RFields)
  | DeleteDoc (path : String)
deriving DecidableEq

/-- Change represents one change on one document (src/change.go).  Go nil
maps are `none`.  The Go instruction string is represented by its parsed
structural-patch payload, `none` when the string is empty; the rollback
string likewise holds the marshalled patch value once it is set.  The
external database client handle carried by the Go struct plays no part in
the resolution pipeline and is omitted. -/
structure Change where
  docPath : String
  before : Option RFields
  patch : Option RFields
  after : Option RFields
  instruction : Option Canon
  command : Command
  prettyDiff : Str
  rollback : Option Canon
  errState : Option String
  cache : List (String × CFields)
deriving DecidableEq

/-- NewChange is a Change factory (src/change.go). -/
def NewChange (docPath : String) (before patch : Option RFields)
    (command : Command) (instruction : Option Canon) : Change :=
  { docPath := docPath, before := before, patch := patch, after := none,
    instruction := instruction, command := command, prettyDiff := [],
    rollback := none, errState := some "Change has not yet been solved.",
    cache := [] }

/-- fetchCache (src/change.go): the memoized serialized form of a logical
field, computed on first use and cached under its logical name. -/
def fetchCache (c : Change) (key : String) (data : Option RFields) :
    Change × CFields :=
  match c.cache.lookup key with
  | some v => (c, v)
  | none =>
      let sVar := serializeFields (data.getD [])
      ({ c with cache := (key, sVar) :: c.cache }, sVar)

/-- beforeAfterCache (src/change.go): the serialized before and after
values, via the cache. -/
def beforeAfterCache (c : Change) : Change × CFields × CFields :=
  let p1 := fetchCache c "serialBefore" c.before
  let p2 := fetchCache p1.1 "serialAfter" p1.1.after
  (p2.1, p1.2, p2.2)

/-- inferAfter attempts to solve for the Change's after value
(src/change.go).  The serialization and diff/patch collaborators are the
spec-modelled functions above.  JSON (un)marshalling of canonical values
is the identity on this key-sorted representation; when the patch
application yields a non-mapping, Go's json.Unmarshal leaves its target
map nil, so after becomes none. -/
def inferAfter (c : Change) : Except String Change :=
  match c.command with
  | .MigratorSet => .ok { c with after := c.patch }
  | .MigratorAdd => .ok { c with after := c.patch }
  | .MigratorDelete => .ok { c with after := some [] }
  | _ =>
      if c.before = none ∨ (c.patch = none ∧ c.instruction = none) then
        .error "Need before and patch/instruction to infer after."
      else
        let p1 := fetchCache c "sBefore" c.before
        let p2 := fetchCache p1.1 "sPatch" p1.1.patch
        let sBefore := p1.2
        let sPatch := p2.2
        let pm : Canon :=
          match p2.1.instruction with
          | some ins => if (p2.1.patch.getD []).length = 0 then ins else .obj sPatch
          | none => .obj sPatch
        let applied := ApplyDiffPatch (.obj sBefore) pm
        let ua : Option CFields :=
          match applied with
          | .obj fs => some fs
          | _ => none
        .ok { p2.1 with after := ua.map deserializeFields }

/-- inferCommand attempts to solve for the Change's command value
(src/change.go). -/
def inferCommand (c : Change) : Except String Change :=
  if c.command ≠ .MigratorUnknown then .ok c
  else if c.after = none then .error "Need after value to infer command."
  else if 0 < (c.after.getD []).length then .ok { c with command := .MigratorSet }
  else .ok { c with command := .MigratorDelete }

/-- inferRollback attempts to solve for the Change's rollback value
(src/change.go): the merge patch from the serialized after back to the
serialized before. -/
def inferRollback (c : Change) : Except String Change :=
  if c.before = none ∨ c.after = none then
    .error "Need before and after value to infer rollback."
  else
    let p := beforeAfterCache c
    .ok { p.1 with rollback := some (GetDiffPatch (.obj p.2.2) (.obj p.2.1)) }

/-- inferPatch attempts to solve for the Change's patch value
(src/change.go); a pure fill-in step that cannot fail. -/
def inferPatch (c : Change) : Change :=
  if (c.patch.getD []).length = 0 ∧
      (c.command = .MigratorAdd ∨ c.command = .MigratorSet ∨
        c.command = .MigratorUpdate) then
    { c with patch := c.after }
  else c

/-- inferPrettyDiff attempts to solve for the Change's prettyDiff value
(src/change.go). -/
def inferPrettyDiff (c : Change) : Except String Change :=
  if c.before = none ∨ c.after = none then
    .error "Need before and after value to infer pretty diff."
  else
    let p := beforeAfterCache c
    .ok { p.1 with prettyDiff := PrettyDiff p.2.1 p.2.2 }

/-- SolveChange will attempt to solve for all needed Change values given
the current state (src/change.go): the fixed pipeline, aborted at the
first failing step, whose error is recorded in errState. -/
def SolveChange (c : Change) : Change :=
  let c0 := { c with errState := none }
  match inferAfter c0 with
  | .error e => { c0 with errState := some e }
  | .ok c1 =>
      match inferCommand c1 with
      | .error e => { c1 with errState := some e }
      | .ok c2 =>
          match inferPrettyDiff c2 with
          | .error e => { c2 with errState := some e }
          | .ok c3 =>
              match inferRollback c3 with
              | .error e => { c3 with errState := some e }
              | .ok c4 => inferPatch c4

/-- commandString converts a command enum to a string (src/change.go). -/
def commandString (c : Change) : String :=
  match c.command with
  | .MigratorUpdate => "update"
  | .MigratorSet => "set"
  | .MigratorAdd => "add"
  | .MigratorDelete => "delete"
  | _ => "unknown"

/-- Present returns a pretty representation of the change for printing
(src/change.go).  The terminal colour decoration of the document path
lives outside the core (spec section 1 places terminal rendering out of
scope) and is omitted here. -/
def Present (c : Change) : List String × Str :=
  let header := ["Target: " ++ c.docPath,
    " >> [" ++ (commandString c).toUpper ++ "]" ++ "\n\n"]
  match c.errState with
  | some e => (header, "< !!! ERROR STATE !!! >\n".data ++ e.data ++ "\n".data)
  | none =>
      if c.prettyDiff.length = 0 then (header, "< no changes >\n".data)
      else
        let stripOne := fun (s : Str) (r : String) =>
          removeAll (r ++ "\"").data (removeAll ("\"" ++ r).data s)
        let s := (["__timestamp__", "__delete__", "__docref__"] : List String).foldl
          stripOne c.prettyDiff
        (header, s ++ "\n".data)

/-- pushChange executes this change unit against the database
(src/change.go), dispatching exactly one database operation chosen by the
command, with the transformer applied to the patch immediately before. -/
def pushChange (c : Change) (transformer : Option RFields → Option RFields) : DbOp :=
  let data := transformer c.patch
  match c.command with
  | .MigratorUpdate => .UpdateDoc c.docPath data
  | .MigratorSet => .SetDoc c.docPath data
  | .MigratorAdd => .SetDoc c.docPath data
  | _ => .DeleteDoc c.docPath

/-- The condition under which inferAfter reaches its call to the
structural patch-apply primitive, read off the control flow of
src/change.go lines 104-150: the Set, Add and Delete shortcuts return
before it and the missing-inputs check errors out before it. -/
def inferAfterUsesDiff (c : Change) : Bool :=
  match c.command with
  | .MigratorSet => false
  | .MigratorAdd => false
  | .MigratorDelete => false
  | _ =>
      if c.before = none ∨ (c.patch = none ∧ c.instruction = none) then false
      else true

theorem wrapped_wrap (tag t : Str) : wrapped tag (tag ++ (t ++ tag)) = true := by
  have h1 : (tag ++ (t ++ tag)).take tag.length = tag := List.take_left _ _
  have h2 : (tag ++ (t ++ tag)).drop ((tag ++ (t ++ tag)).length - tag.length)
      = tag := by
    rw [show (tag ++ (t ++ tag)).length - tag.length = (tag ++ t).length by
      simp [List.length_append]; omega]
    rw [← List.append_assoc]
    exact List.drop_left _ _
  unfold wrapped
  rw [h1, h2]
  simp [List.length_append]
  omega

theorem unwrap_wrap (tag t : Str) : unwrap tag (tag ++ (t ++ tag)) = t := by
  unfold unwrap
  rw [show (tag ++ (t ++ tag)).length - 2 * tag.length = t.length by
    simp [List.length_append]; omega]
  rw [List.drop_left]
  exact List.take_left _ _

theorem wrapped_decomp {tag s : Str} (h : wrapped tag s = true) :
    tag ++ (unwrap tag s ++ tag) = s := by
  unfold wrapped at h
  simp only [Bool.and_eq_true, beq_iff_eq, decide_eq_true_eq] at h
  obtain ⟨⟨hlen, htake⟩, hdrop⟩ := h
  unfold unwrap
  conv_rhs => rw [← List.take_append_drop tag.length s, htake]
  congr 1
  conv_rhs => rw [← List.take_append_drop (s.length - 2 * tag.length) (s.drop tag.length)]
  congr 1
  rw [List.drop_drop]
  rw [show tag.length + (s.length - 2 * tag.length) = s.length - tag.length by omega]
  exact hdrop.symm

theorem timeWrap_ne_deleteLit (t : Str) : timeTag ++ (t ++ timeTag) ≠ deleteLit := by
  intro h
  have h2 := congrArg (List.take 2) h
  simp [timeTag, deleteLit] at h2

theorem refWrap_ne_deleteLit (p : Str) : refTag ++ (p ++ refTag) ≠ deleteLit := by
  intro h
  have h2 := congrArg (List.take 2) h
  simp [refTag, deleteLit] at h2

theorem refWrap_not_timeWrapped (p : Str) :
    wrapped timeTag (refTag ++ (p ++ refTag)) = false := by
  have hne : ¬ (refTag ++ (p ++ refTag)).take timeTag.length = timeTag := by
    intro h
    have h2 := congrArg (List.take 2) h
    simp [refTag, timeTag, List.take_take] at h2
  unfold wrapped
  simp [hne]

theorem deStr_deleteLit : deStr deleteLit = .deleteMarker := by
  simp [deStr]

theorem deStr_timeWrap (t : Str) : deStr (timeTag ++ (t ++ timeTag)) = .time t := by
  simp [deStr, timeWrap_ne_deleteLit t, wrapped_wrap, unwrap_wrap]

theorem deStr_refWrap (p : Str) : deStr (refTag ++ (p ++ refTag)) = .ref p := by
  simp [deStr, refWrap_ne_deleteLit p, refWrap_not_timeWrapped, wrapped_wrap,
    unwrap_wrap]

theorem deStr_plain {s : Str} (h : plainStr s = true) : deStr s = .str s := by
  simp only [plainStr, Bool.and_eq_true, Bool.not_eq_true'] at h
  obtain ⟨⟨h1, h2⟩, h3⟩ := h
  rw [beq_eq_false_iff_ne] at h1
  simp [deStr, h1, h2, h3]

theorem deserialize_serialize_aux : ∀ n : Nat,
    (∀ v : Rich, sizeOf v ≤ n → v.plainB = true →
      DeSerializeData (SerializeData v) = v) ∧
    (∀ xs : List Rich, sizeOf xs ≤ n → Rich.plainListB xs = true →
      deserializeList (serializeList xs) = xs) ∧
    (∀ fs : RFields, sizeOf fs ≤ n → Rich.plainFieldsB fs = true →
      deserializeFields (serializeFields fs) = fs) := by
  intro n
  induction n using Nat.strong_induction_on with
  | _ n ih =>
    refine ⟨?_, ?_, ?_⟩
    · intro v hv hp
      cases v with
      | null => rfl
      | bool b => rfl
      | num m => rfl
      | str s =>
          simp only [Rich.plainB] at hp
          simp [SerializeData, DeSerializeData, deStr_plain hp]
      | arr xs =>
          simp only [Rich.plainB] at hp
          have hxs : sizeOf xs < sizeOf (Rich.arr xs) := by
            simp only [Rich.arr.sizeOf_spec]; omega
          simp [SerializeData, DeSerializeData,
            (ih _ (lt_of_lt_of_le hxs hv)).2.1 xs (le_refl _) hp]
      | obj fs =>
          simp only [Rich.plainB] at hp
          have hfs : sizeOf fs < sizeOf (Rich.obj fs) := by
            simp only [Rich.obj.sizeOf_spec]; omega
          simp [SerializeData, DeSerializeData,
            (ih _ (lt_of_lt_of_le hfs hv)).2.2 fs (le_refl _) hp]
      | time t => simp [SerializeData, DeSerializeData, deStr_timeWrap]
      | ref p => simp [SerializeData, DeSerializeData, deStr_refWrap]
      | deleteMarker => simp [SerializeData, DeSerializeData, deStr_deleteLit]
    · intro xs hx hp
      cases xs with
      | nil => rfl
      | cons v vs =>
          simp only [Rich.plainListB, Bool.and_eq_true] at hp
          have h1 : sizeOf v < sizeOf (v :: vs) := by
            simp only [List.cons.sizeOf_spec]; omega
          have h2 : sizeOf vs < sizeOf (v :: vs) := by
            simp only [List.cons.sizeOf_spec]; omega
          simp [serializeList, deserializeList,
            (ih _ (lt_of_lt_of_le h1 hx)).1 v (le_refl _) hp.1,
            (ih _ (lt_of_lt_of_le h2 hx)).2.1 vs (le_refl _) hp.2]
    · intro fs hf hp
      cases fs with
      | nil => rfl
      | cons e es =>
          obtain ⟨k, v⟩ := e
          simp only [Rich.plainFieldsB, Bool.and_eq_true] at hp
          have h1 : sizeOf v < sizeOf ((k, v) :: es) := by
            simp only [List.cons.sizeOf_spec, Prod.mk.sizeOf_spec]; omega
          have h2 : sizeOf es < sizeOf ((k, v) :: es) := by
            simp only [List.cons.sizeOf_spec]; omega
          simp [serializeFields, deserializeFields,
            (ih _ (lt_of_lt_of_le h1 hf)).1 v (le_refl _) hp.1,
            (ih _ (lt_of_lt_of_le h2 hf)).2.2 es (le_refl _) hp.2]

theorem deserialize_serialize (v : Rich) (h : v.plainB = true) :
    DeSerializeData (SerializeData v) = v :=
  (deserialize_serialize_aux (sizeOf v)).1 v (le_refl _) h

theorem deserializeFields_serializeFields (fs : RFields)
    (h : Rich.plainFieldsB fs = true) :
    deserializeFields (serializeFields fs) = fs :=
  (deserialize_serialize_aux (sizeOf fs)).2.2 fs (le_refl _) h

theorem serialize_deStr (s : Str) : SerializeData (deStr s) = .str s := by
  by_cases h1 : s = deleteLit
  · subst h1; simp [deStr, SerializeData]
  · by_cases h2 : wrapped timeTag s = true
    · simp [deStr, h1, h2, SerializeData, wrapped_decomp h2]
    · by_cases h3 : wrapped refTag s = true
      · simp [deStr, h1, h2, h3, SerializeData, wrapped_decomp h3]
      · simp [deStr, h1, h2, h3, SerializeData]

theorem serialize_deserialize_aux : ∀ n : Nat,
    (∀ c : Canon, sizeOf c ≤ n → SerializeData (DeSerializeData c) = c) ∧
    (∀ xs : List Canon, sizeOf xs ≤ n →
      serializeList (deserializeList xs) = xs) ∧
    (∀ fs : CFields, sizeOf fs ≤ n →
      serializeFields (deserializeFields fs) = fs) := by
  intro n
  induction n using Nat.strong_induction_on with
  | _ n ih =>
    refine ⟨?_, ?_, ?_⟩
    · intro c hc
      cases c with
      | null => rfl
      | bool b => rfl
      | num m => rfl
      | str s => simp [DeSerializeData, serialize_deStr]
      | arr xs =>
          have hxs : sizeOf xs < sizeOf (Canon.arr xs) := by
            simp only [Canon.arr.sizeOf_spec]; omega
          simp [SerializeData, DeSerializeData,
            (ih _ (lt_of_lt_of_le hxs hc)).2.1 xs (le_refl _)]
      | obj fs =>
          have hfs : sizeOf fs < sizeOf (Canon.obj fs) := by
            simp only [Canon.obj.sizeOf_spec]; omega
          simp [SerializeData, DeSerializeData,
            (ih _ (lt_of_lt_of_le hfs hc)).2.2 fs (le_refl _)]
    · intro xs hx
      cases xs with
      | nil => rfl
      | cons v vs =>
          have h1 : sizeOf v < sizeOf (v :: vs) := by
            simp only [List.cons.sizeOf_spec]; omega
          have h2 : sizeOf vs < sizeOf (v :: vs) := by
            simp only [List.cons.sizeOf_spec]; omega
          simp [serializeList, deserializeList,
            (ih _ (lt_of_lt_of_le h1 hx)).1 v (le_refl _),
            (ih _ (lt_of_lt_of_le h2 hx)).2.1 vs (le_refl _)]
    · intro fs hf
      cases fs with
      | nil => rfl
      | cons e es =>
          obtain ⟨k, v⟩ := e
          have h1 : sizeOf v < sizeOf ((k, v) :: es) := by
            simp only [List.cons.sizeOf_spec, Prod.mk.sizeOf_spec]; omega
          have h2 : sizeOf es < sizeOf ((k, v) :: es) := by
            simp only [List.cons.sizeOf_spec]; omega
          simp [serializeFields, deserializeFields,
            (ih _ (lt_of_lt_of_le h1 hf)).1 v (le_refl _),
            (ih _ (lt_of_lt_of_le h2 hf)).2.2 es (le_refl _)]

theorem serializeFields_deserializeFields (fs : CFields) :
    serializeFields (deserializeFields fs) = fs :=
  (serialize_deserialize_aux (sizeOf fs)).2.2 fs (le_refl _)

theorem keyLt_trans {a b c : String} (h1 : keyLt a b = true)
    (h2 : keyLt b c = true) : keyLt a c = true := strLtB_trans h1 h2

theorem keyLt_irrefl (a : String) : keyLt a a = false := strLtB_irrefl _

theorem keyLt_asymm {a b : String} (h : keyLt a b = true) : keyLt b a = false := by
  cases h2 : keyLt b a
  · rfl
  · have h3 := keyLt_trans h h2
    rw [keyLt_irrefl] at h3
    exact absurd h3 (by simp)

theorem keyLt_ne {a b : String} (h : keyLt a b = true) : a ≠ b := by
  intro he
  subst he
  rw [keyLt_irrefl] at h
  exact absurd h (by simp)

theorem keyLt_conn {a b : String} (h1 : keyLt a b = false)
    (h2 : keyLt b a = false) : a = b := by
  have h3 : a.data = b.data := strLtB_conn h1 h2
  cases a
  cases b
  exact congrArg String.mk h3

theorem keySorted_cons {α : Type} : ∀ {l : List (String × α)} {k : String} {v : α},
    keySorted ((k, v) :: l) = true ↔
      (∀ e ∈ l, keyLt k e.1 = true) ∧ keySorted l = true := by
  intro l
  induction l with
  | nil => intro k v; simp [keySorted]
  | cons e t ih =>
      intro k v
      obtain ⟨k2, v2⟩ := e
      rw [show keySorted ((k, v) :: (k2, v2) :: t)
          = (keyLt k k2 && keySorted ((k2, v2) :: t)) from rfl]
      constructor
      · intro h
        rw [Bool.and_eq_true] at h
        obtain ⟨h1, h2⟩ := h
        have h3 := ih.mp h2
        refine ⟨?_, h2⟩
        intro e he
        rcases List.mem_cons.mp he with he | he
        · subst he; exact h1
        · exact keyLt_trans h1 (h3.1 e he)
      · intro h
        rw [Bool.and_eq_true]
        exact ⟨h.1 (k2, v2) (List.mem_cons_self _ _), h.2⟩

theorem keySorted_tail {α : Type} {e : String × α} {l : List (String × α)}
    (h : keySorted (e :: l) = true) : keySorted l = true := by
  obtain ⟨k, v⟩ := e
  exact (keySorted_cons.mp h).2

theorem wfFieldsB_iff : ∀ {l : CFields},
    Canon.wfFieldsB l = true ↔ ∀ e ∈ l, e.2.wfB = true := by
  intro l
  induction l with
  | nil => simp [Canon.wfFieldsB]
  | cons e t ih =>
      obtain ⟨k, v⟩ := e
      rw [show Canon.wfFieldsB ((k, v) :: t) = (v.wfB && Canon.wfFieldsB t) from rfl]
      simp [ih]

theorem nfFieldsB_iff : ∀ {l : CFields},
    Canon.nfFieldsB l = true ↔ ∀ e ∈ l, e.2.nfB = true := by
  intro l
  induction l with
  | nil => simp [Canon.nfFieldsB]
  | cons e t ih =>
      obtain ⟨k, v⟩ := e
      rw [show Canon.nfFieldsB ((k, v) :: t) = (v.nfB && Canon.nfFieldsB t) from rfl]
      simp [ih]

theorem serializeFields_keys (fs : RFields) :
    (serializeFields fs).map (fun e => e.1) = fs.map (fun e => e.1) := by
  induction fs with
  | nil => rfl
  | cons e t ih =>
      obtain ⟨k, v⟩ := e
      simp [serializeFields, ih]

theorem deserializeFields_keys (fs : CFields) :
    (deserializeFields fs).map (fun e => e.1) = fs.map (fun e => e.1) := by
  induction fs with
  | nil => rfl
  | cons e t ih =>
      obtain ⟨k, v⟩ := e
      simp [deserializeFields, ih]

theorem keySorted_iff_keys {α β : Type} {l : List (String × α)}
    {m : List (String × β)} (h : l.map (fun e => e.1) = m.map (fun e => e.1)) :
    keySorted l = keySorted m := by
  induction l generalizing m with
  | nil =>
      cases m with
      | nil => rfl
      | cons e t => simp at h
  | cons e t ih =>
      obtain ⟨k, v⟩ := e
      cases m with
      | nil => simp at h
      | cons e2 t2 =>
          obtain ⟨k2, v2⟩ := e2
          simp only [List.map_cons, List.cons.injEq] at h
          obtain ⟨hk, ht⟩ := h
          subst hk
          cases t with
          | nil => cases t2 <;> simp_all [keySorted]
          | cons f t' =>
              cases t2 with
              | nil => simp at ht
              | cons f2 t2' =>
                  obtain ⟨fk, fv⟩ := f
                  obtain ⟨fk2, fv2⟩ := f2
                  simp only [List.map_cons, List.cons.injEq] at ht
                  obtain ⟨hfk, ht2⟩ := ht
                  subst hfk
                  rw [show keySorted ((k, v) :: (fk, fv) :: t')
                      = (keyLt k fk && keySorted ((fk, fv) :: t')) from rfl]
                  rw [show keySorted ((k, v2) :: (fk, fv2) :: t2')
                      = (keyLt k fk && keySorted ((fk, fv2) :: t2')) from rfl]
                  rw [@ih ((fk, fv2) :: t2') (by simp [ht2])]

theorem diffFields_nil_right (fa : CFields) :
    diffFields fa [] = fa.map (fun e => (e.1, Canon.null)) := rfl

theorem diffFields_nil_cons (kb : String) (vb : Canon) (bs : CFields) :
    diffFields [] ((kb, vb) :: bs) = (kb, vb) :: diffFields [] bs := by
  conv_lhs => rw [diffFields]
  simp

theorem diffFields_cons_lt {ka kb : String} (va vb : Canon) (as bs : CFields)
    (h : keyLt ka kb = true) :
    diffFields ((ka, va) :: as) ((kb, vb) :: bs)
      = (ka, Canon.null) :: diffFields as ((kb, vb) :: bs) := by
  conv_lhs => rw [diffFields]
  conv_rhs => rw [diffFields]
  simp [List.takeWhile_cons, List.dropWhile_cons, h]

theorem diffFields_cons_gt {ka kb : String} (va vb : Canon) (as bs : CFields)
    (h : keyLt kb ka = true) :
    diffFields ((ka, va) :: as) ((kb, vb) :: bs)
      = (kb, vb) :: diffFields ((ka, va) :: as) bs := by
  have h1 : keyLt ka kb = false := keyLt_asymm h
  have h2 : ka ≠ kb := Ne.symm (keyLt_ne h)
  conv_lhs => rw [diffFields]
  simp [List.takeWhile_cons, List.dropWhile_cons, h1, h2]

theorem diffFields_cons_eq (ka : String) (va vb : Canon) (as bs : CFields) :
    diffFields ((ka, va) :: as) ((ka, vb) :: bs)
      = if va = vb then diffFields as bs
        else (ka, GetDiffPatch va vb) :: diffFields as bs := by
  conv_lhs => rw [diffFields]
  simp [List.takeWhile_cons, List.dropWhile_cons, keyLt_irrefl]

theorem applyFields_nil_patch (ft : CFields) : applyFields ft [] = ft := rfl

theorem applyFields_nil_target (kp : String) (vp : Canon) (ps : CFields) :
    applyFields [] ((kp, vp) :: ps)
      = if vp = .null then applyFields [] ps
        else (kp, ApplyDiffPatch .null vp) :: applyFields [] ps := by
  conv_lhs => rw [applyFields]
  simp

theorem applyFields_cons_lt {kt kp : String} (vt vp : Canon) (ft ps : CFields)
    (h : keyLt kt kp = true) :
    applyFields ((kt, vt) :: ft) ((kp, vp) :: ps)
      = (kt, vt) :: applyFields ft ((kp, vp) :: ps) := by
  conv_lhs => rw [applyFields]
  conv_rhs => rw [applyFields]
  simp [List.takeWhile_cons, List.dropWhile_cons, h]

theorem applyFields_cons_eq (kp : String) (vt vp : Canon) (ft ps : CFields) :
    applyFields ((kp, vt) :: ft) ((kp, vp) :: ps)
      = if vp = .null then applyFields ft ps
        else (kp, ApplyDiffPatch vt vp) :: applyFields ft ps := by
  conv_lhs => rw [applyFields]
  simp [List.takeWhile_cons, List.dropWhile_cons, keyLt_irrefl]

theorem applyFields_cons_gt {kt kp : String} (vt vp : Canon) (ft ps : CFields)
    (h : keyLt kp kt = true) :
    applyFields ((kt, vt) :: ft) ((kp, vp) :: ps)
      = if vp = .null then applyFields ((kt, vt) :: ft) ps
        else (kp, ApplyDiffPatch .null vp) :: applyFields ((kt, vt) :: ft) ps := by
  have h1 : keyLt kt kp = false := keyLt_asymm h
  have h2 : kt ≠ kp := Ne.symm (keyLt_ne h)
  conv_lhs => rw [applyFields]
  simp [List.takeWhile_cons, List.dropWhile_cons, h1, h2]

theorem applyFields_head_keep {kt : String} (vt : Canon) (ft fp : CFields)
    (h : ∀ e ∈ fp, keyLt kt e.1 = true) :
    applyFields ((kt, vt) :: ft) fp = (kt, vt) :: applyFields ft fp := by
  cases fp with
  | nil => rfl
  | cons e ps =>
      obtain ⟨kp, vp⟩ := e
      exact applyFields_cons_lt _ _ _ _ (h (kp, vp) (List.mem_cons_self _ _))

theorem keys_sub_of_sublist {l1 l2 : CFields} (h : l1.Sublist l2) {k : String}
    (hm : k ∈ l1.map (fun e => e.1)) : k ∈ l2.map (fun e => e.1) :=
  (h.map (fun e => e.1)).subset hm

theorem sizeOf_lt_cons {α : Type} [SizeOf α] (a : α) (l : List α) :
    sizeOf l < sizeOf (a :: l) := by
  simp only [List.cons.sizeOf_spec]
  omega

theorem keyLt_trichotomy (a b : String) :
    keyLt a b = true ∨ keyLt b a = true ∨ a = b := by
  cases h1 : keyLt a b
  · cases h2 : keyLt b a
    · exact Or.inr (Or.inr (keyLt_conn h1 h2))
    · exact Or.inr (Or.inl rfl)
  · exact Or.inl rfl

theorem mem_keys_diffFields_aux : ∀ n : Nat, ∀ fa fb : CFields,
    sizeOf fa + sizeOf fb ≤ n → ∀ k : String,
    k ∈ (diffFields fa fb).map (fun e => e.1) →
    k ∈ fa.map (fun e => e.1) ∨ k ∈ fb.map (fun e => e.1) := by
  intro n
  induction n using Nat.strong_induction_on with
  | _ n ih =>
    intro fa fb hn k h
    cases fb with
    | nil =>
        rw [diffFields_nil_right] at h
        left
        simpa [List.map_map] using h
    | cons eb bs =>
        obtain ⟨kb, vb⟩ := eb
        have hbs : sizeOf bs < sizeOf ((kb, vb) :: bs) := sizeOf_lt_cons _ _
        cases fa with
        | nil =>
            rw [diffFields_nil_cons] at h
            simp only [List.map_cons, List.mem_cons] at h
            rcases h with h | h
            · right; simp [h]
            · rcases ih (sizeOf ([] : CFields) + sizeOf bs) (by omega) [] bs
                  (le_refl _) k h with h2 | h2
              · simp at h2
              · right; simp only [List.map_cons, List.mem_cons]; exact Or.inr h2
        | cons ea as =>
            obtain ⟨ka, va⟩ := ea
            have has : sizeOf as < sizeOf ((ka, va) :: as) := sizeOf_lt_cons _ _
            rcases keyLt_trichotomy ka kb with hlt | hgt | heq
            · rw [diffFields_cons_lt _ _ _ _ hlt] at h
              simp only [List.map_cons, List.mem_cons] at h
              rcases h with h | h
              · left; simp [h]
              · rcases ih (sizeOf as + sizeOf ((kb, vb) :: bs)) (by omega) as
                    ((kb, vb) :: bs) (le_refl _) k h with h2 | h2
                · left; simp only [List.map_cons, List.mem_cons]; exact Or.inr h2
                · right; exact h2
            · rw [diffFields_cons_gt _ _ _ _ hgt] at h
              simp only [List.map_cons, List.mem_cons] at h
              rcases h with h | h
              · right; simp [h]
              · rcases ih (sizeOf ((ka, va) :: as) + sizeOf bs) (by omega)
                    ((ka, va) :: as) bs (le_refl _) k h with h2 | h2
                · left; exact h2
                · right; simp only [List.map_cons, List.mem_cons]; exact Or.inr h2
            · subst heq
              rw [diffFields_cons_eq] at h
              have hrec : ∀ k, k ∈ (diffFields as bs).map (fun e => e.1) →
                  k ∈ as.map (fun e => e.1) ∨ k ∈ bs.map (fun e => e.1) :=
                fun k hk => ih (sizeOf as + sizeOf bs) (by omega) as bs (le_refl _) k hk
              by_cases hv : va = vb
              · rw [if_pos hv] at h
                rcases hrec k h with h2 | h2
                · left; simp only [List.map_cons, List.mem_cons]; exact Or.inr h2
                · right; simp only [List.map_cons, List.mem_cons]; exact Or.inr h2
              · rw [if_neg hv] at h
                simp only [List.map_cons, List.mem_cons] at h
                rcases h with h | h
                · left; simp [h]
                · rcases hrec k h with h2 | h2
                  · left; simp only [List.map_cons, List.mem_cons]; exact Or.inr h2
                  · right; simp only [List.map_cons, List.mem_cons]; exact Or.inr h2

theorem mem_keys_diffFields {fa fb : CFields} {k : String}
    (h : k ∈ (diffFields fa fb).map (fun e => e.1)) :
    k ∈ fa.map (fun e => e.1) ∨ k ∈ fb.map (fun e => e.1) :=
  mem_keys_diffFields_aux (sizeOf fa + sizeOf fb) fa fb (le_refl _) k h

theorem mem_keys_applyFields_aux : ∀ n : Nat, ∀ ft fp : CFields,
    sizeOf ft + sizeOf fp ≤ n → ∀ k : String,
    k ∈ (applyFields ft fp).map (fun e => e.1) →
    k ∈ ft.map (fun e => e.1) ∨ k ∈ fp.map (fun e => e.1) := by
  intro n
  induction n using Nat.strong_induction_on with
  | _ n ih =>
    intro ft fp hn k h
    cases fp with
    | nil =>
        rw [applyFields_nil_patch] at h
        left
        exact h
    | cons ep ps =>
        obtain ⟨kp, vp⟩ := ep
        have hps : sizeOf ps < sizeOf ((kp, vp) :: ps) := sizeOf_lt_cons _ _
        cases ft with
        | nil =>
            rw [applyFields_nil_target] at h
            have hrec : ∀ k, k ∈ (applyFields [] ps).map (fun e => e.1) →
                k ∈ ([] : CFields).map (fun e => e.1) ∨ k ∈ ps.map (fun e => e.1) :=
              fun k hk => ih (sizeOf ([] : CFields) + sizeOf ps) (by omega) [] ps
                (le_refl _) k hk
            by_cases hv : vp = .null
            · rw [if_pos hv] at h
              rcases hrec k h with h2 | h2
              · simp at h2
              · right; simp only [List.map_cons, List.mem_cons]; exact Or.inr h2
            · rw [if_neg hv] at h
              simp only [List.map_cons, List.mem_cons] at h
              rcases h with h | h
              · right; simp [h]
              · rcases hrec k h with h2 | h2
                · simp at h2
                · right; simp only [List.map_cons, List.mem_cons]; exact Or.inr h2
        | cons et tt =>
            obtain ⟨kt, vt⟩ := et
            have htt : sizeOf tt < sizeOf ((kt, vt) :: tt) := sizeOf_lt_cons _ _
            rcases keyLt_trichotomy kt kp with hlt | hgt | heq
            · rw [applyFields_cons_lt _ _ _ _ hlt] at h
              simp only [List.map_cons, List.mem_cons] at h
              rcases h with h | h
              · left; simp [h]
              · rcases ih (sizeOf tt + sizeOf ((kp, vp) :: ps)) (by omega) tt
                    ((kp, vp) :: ps) (le_refl _) k h with h2 | h2
                · left; simp only [List.map_cons, List.mem_cons]; exact Or.inr h2
                · right; exact h2
            · rw [applyFields_cons_gt _ _ _ _ hgt] at h
              have hrec : ∀ k, k ∈ (applyFields ((kt, vt) :: tt) ps).map (fun e => e.1) →
                  k ∈ ((kt, vt) :: tt).map (fun e => e.1) ∨ k ∈ ps.map (fun e => e.1) :=
                fun k hk => ih (sizeOf ((kt, vt) :: tt) + sizeOf ps) (by omega)
                  ((kt, vt) :: tt) ps (le_refl _) k hk
              by_cases hv : vp = .null
              · rw [if_pos hv] at h
                rcases hrec k h with h2 | h2
                · left; exact h2
                · right; simp only [List.map_cons, List.mem_cons]; exact Or.inr h2
              · rw [if_neg hv] at h
                simp only [List.map_cons, List.mem_cons] at h
                rcases h with h | h
                · right; simp [h]
                · rcases hrec k h with h2 | h2
                  · left; exact h2
                  · right; simp only [List.map_cons, List.mem_cons]; exact Or.inr h2
            · subst heq
              rw [applyFields_cons_eq] at h
              have hrec : ∀ k, k ∈ (applyFields tt ps).map (fun e => e.1) →
                  k ∈ tt.map (fun e => e.1) ∨ k ∈ ps.map (fun e => e.1) :=
                fun k hk => ih (sizeOf tt + sizeOf ps) (by omega) tt ps (le_refl _) k hk
              by_cases hv : vp = .null
              · rw [if_pos hv] at h
                rcases hrec k h with h2 | h2
                · left; simp only [List.map_cons, List.mem_cons]; exact Or.inr h2
                · right; simp only [List.map_cons, List.mem_cons]; exact Or.inr h2
              · rw [if_neg hv] at h
                simp only [List.map_cons, List.mem_cons] at h
                rcases h with h | h
                · right; simp [h]
                · rcases hrec k h with h2 | h2
                  · left; simp only [List.map_cons, List.mem_cons]; exact Or.inr h2
                  · right; simp only [List.map_cons, List.mem_cons]; exact Or.inr h2

theorem mem_keys_applyFields {ft fp : CFields} {k : String}
    (h : k ∈ (applyFields ft fp).map (fun e => e.1)) :
    k ∈ ft.map (fun e => e.1) ∨ k ∈ fp.map (fun e => e.1) :=
  mem_keys_applyFields_aux (sizeOf ft + sizeOf fp) ft fp (le_refl _) k h

theorem wfFieldsB_cons (k : String) (v : Canon) (t : CFields) :
    Canon.wfFieldsB ((k, v) :: t) = (v.wfB && Canon.wfFieldsB t) := rfl

theorem nfFieldsB_cons (k : String) (v : Canon) (t : CFields) :
    Canon.nfFieldsB ((k, v) :: t) = (v.nfB && Canon.nfFieldsB t) := rfl

theorem GetDiffPatch_ne_null : ∀ {a b : Canon}, b.nfB = true →
    GetDiffPatch a b ≠ Canon.null := by
  intro a b h
  cases a <;> cases b <;> simp_all [GetDiffPatch, Canon.nfB]

theorem apply_diff_aux : ∀ n : Nat,
    (∀ a b : Canon, sizeOf a + sizeOf b ≤ n → a.wfB = true → b.wfB = true →
      b.nfB = true → ApplyDiffPatch a (GetDiffPatch a b) = b) ∧
    (∀ fa fb : CFields, sizeOf fa + sizeOf fb ≤ n →
      keySorted fa = true → Canon.wfFieldsB fa = true →
      keySorted fb = true → Canon.wfFieldsB fb = true → Canon.nfFieldsB fb = true →
      applyFields fa (diffFields fa fb) = fb) ∧
    (∀ p : Canon, sizeOf p ≤ n → p.nfB = true →
      ApplyDiffPatch .null p = p) ∧
    (∀ fp : CFields, sizeOf fp ≤ n → Canon.nfFieldsB fp = true →
      applyFields [] fp = fp) := by
  intro n
  induction n using Nat.strong_induction_on with
  | _ n ih =>
    refine ⟨?_, ?_, ?_, ?_⟩
    · intro a b hs hwa hwb hnb
      cases b with
      | null => simp [Canon.nfB] at hnb
      | obj fb =>
          simp only [Canon.wfB, Bool.and_eq_true] at hwb
          simp only [Canon.nfB] at hnb
          have hfb : sizeOf fb < sizeOf (Canon.obj fb) := by
            simp only [Canon.obj.sizeOf_spec]; omega
          cases a with
          | obj fa =>
              simp only [Canon.wfB, Bool.and_eq_true] at hwa
              have hfa : sizeOf fa < sizeOf (Canon.obj fa) := by
                simp only [Canon.obj.sizeOf_spec]; omega
              show Canon.obj (applyFields fa (diffFields fa fb)) = Canon.obj fb
              exact congrArg Canon.obj
                ((ih (sizeOf fa + sizeOf fb) (by omega)).2.1 fa fb (le_refl _)
                  hwa.1 hwa.2 hwb.1 hwb.2 hnb)
          | null =>
              show Canon.obj (applyFields [] fb) = Canon.obj fb
              exact congrArg Canon.obj
                ((ih (sizeOf fb) (by omega)).2.2.2 fb (le_refl _) hnb)
          | bool c =>
              show Canon.obj (applyFields [] fb) = Canon.obj fb
              exact congrArg Canon.obj
                ((ih (sizeOf fb) (by omega)).2.2.2 fb (le_refl _) hnb)
          | num m =>
              show Canon.obj (applyFields [] fb) = Canon.obj fb
              exact congrArg Canon.obj
                ((ih (sizeOf fb) (by omega)).2.2.2 fb (le_refl _) hnb)
          | str s =>
              show Canon.obj (applyFields [] fb) = Canon.obj fb
              exact congrArg Canon.obj
                ((ih (sizeOf fb) (by omega)).2.2.2 fb (le_refl _) hnb)
          | arr xs =>
              show Canon.obj (applyFields [] fb) = Canon.obj fb
              exact congrArg Canon.obj
                ((ih (sizeOf fb) (by omega)).2.2.2 fb (le_refl _) hnb)
      | bool c => cases a <;> rfl
      | num m => cases a <;> rfl
      | str s => cases a <;> rfl
      | arr xs => cases a <;> rfl
    · intro fa fb hs hsa hwa hsb hwb hnb
      cases fb with
      | nil =>
          cases fa with
          | nil => rfl
          | cons ea as =>
              obtain ⟨ka, va⟩ := ea
              have has : sizeOf as < sizeOf ((ka, va) :: as) := sizeOf_lt_cons _ _
              rw [diffFields_nil_right]
              simp only [List.map_cons]
              rw [applyFields_cons_eq, if_pos rfl]
              rw [← diffFields_nil_right]
              exact (ih (sizeOf as + sizeOf ([] : CFields)) (by
                  simp only [List.nil.sizeOf_spec] at hs ⊢; omega)).2.1 as []
                (le_refl _) (keySorted_tail hsa)
                (by rw [wfFieldsB_cons, Bool.and_eq_true] at hwa; exact hwa.2)
                rfl rfl rfl
      | cons eb bs =>
          obtain ⟨kb, vb⟩ := eb
          rw [nfFieldsB_cons, Bool.and_eq_true] at hnb
          rw [wfFieldsB_cons, Bool.and_eq_true] at hwb
          have hbs : sizeOf bs < sizeOf ((kb, vb) :: bs) := sizeOf_lt_cons _ _
          have hvbn : vb ≠ Canon.null := by
            intro hc; subst hc; simp [Canon.nfB] at hnb
          have hvbs : sizeOf vb < sizeOf ((kb, vb) :: bs) := by
            simp only [List.cons.sizeOf_spec, Prod.mk.sizeOf_spec]; omega
          cases fa with
          | nil =>
              rw [diffFields_nil_cons, applyFields_nil_target, if_neg hvbn]
              rw [(ih (sizeOf vb) (by omega)).2.2.1 vb (le_refl _) hnb.1]
              rw [show applyFields [] (diffFields [] bs)
                  = applyFields [] (diffFields [] bs) from rfl]
              rw [(ih (sizeOf ([] : CFields) + sizeOf bs) (by omega)).2.1 []
                bs (le_refl _) rfl rfl (keySorted_tail hsb) hwb.2 hnb.2]
          | cons ea as =>
              obtain ⟨ka, va⟩ := ea
              rw [wfFieldsB_cons, Bool.and_eq_true] at hwa
              have has : sizeOf as < sizeOf ((ka, va) :: as) := sizeOf_lt_cons _ _
              have hvas : sizeOf va < sizeOf ((ka, va) :: as) := by
                simp only [List.cons.sizeOf_spec, Prod.mk.sizeOf_spec]; omega
              rcases keyLt_trichotomy ka kb with hlt | hgt | heq
              · rw [diffFields_cons_lt _ _ _ _ hlt, applyFields_cons_eq, if_pos rfl]
                exact (ih (sizeOf as + sizeOf ((kb, vb) :: bs)) (by omega)).2.1 as
                  ((kb, vb) :: bs) (le_refl _) (keySorted_tail hsa) hwa.2 hsb
                  (by rw [wfFieldsB_cons, Bool.and_eq_true]; exact ⟨hwb.1, hwb.2⟩)
                  (by rw [nfFieldsB_cons, Bool.and_eq_true]; exact ⟨hnb.1, hnb.2⟩)
              · rw [diffFields_cons_gt _ _ _ _ hgt,
                  applyFields_cons_gt _ _ _ _ hgt, if_neg hvbn]
                rw [(ih (sizeOf vb) (by omega)).2.2.1 vb (le_refl _) hnb.1]
                rw [(ih (sizeOf ((ka, va) :: as) + sizeOf bs) (by omega)).2.1
                  ((ka, va) :: as) bs (le_refl _) hsa
                  (by rw [wfFieldsB_cons, Bool.and_eq_true]; exact ⟨hwa.1, hwa.2⟩)
                  (keySorted_tail hsb) hwb.2 hnb.2]
              · subst heq
                rw [diffFields_cons_eq]
                by_cases hv : va = vb
                · rw [if_pos hv]
                  subst hv
                  rw [applyFields_head_keep _ _ _ ?hkeys]
                  case hkeys =>
                    intro e he
                    have hmem : e.1 ∈ (diffFields as bs).map (fun x => x.1) :=
                      List.mem_map_of_mem _ he
                    rcases mem_keys_diffFields hmem with h2 | h2
                    · obtain ⟨x, hx, hxe⟩ := List.mem_map.mp h2
                      have := (keySorted_cons.mp hsa).1 x hx
                      rw [hxe] at this
                      exact this
                    · obtain ⟨x, hx, hxe⟩ := List.mem_map.mp h2
                      have := (keySorted_cons.mp hsb).1 x hx
                      rw [hxe] at this
                      exact this
                  rw [(ih (sizeOf as + sizeOf bs) (by omega)).2.1 as bs
                    (le_refl _) (keySorted_tail hsa) hwa.2 (keySorted_tail hsb)
                    hwb.2 hnb.2]
                · rw [if_neg hv, applyFields_cons_eq,
                    if_neg (GetDiffPatch_ne_null hnb.1)]
                  rw [(ih (sizeOf va + sizeOf vb) (by omega)).1 va vb (le_refl _)
                    hwa.1 hwb.1 hnb.1]
                  rw [(ih (sizeOf as + sizeOf bs) (by omega)).2.1 as bs
                    (le_refl _) (keySorted_tail hsa) hwa.2 (keySorted_tail hsb)
                    hwb.2 hnb.2]
    · intro p hs hnp
      cases p with
      | null => simp [Canon.nfB] at hnp
      | obj fp =>
          simp only [Canon.nfB] at hnp
          have hfp : sizeOf fp < sizeOf (Canon.obj fp) := by
            simp only [Canon.obj.sizeOf_spec]; omega
          show Canon.obj (applyFields [] fp) = Canon.obj fp
          exact congrArg Canon.obj
            ((ih (sizeOf fp) (by omega)).2.2.2 fp (le_refl _) hnp)
      | bool c => rfl
      | num m => rfl
      | str s => rfl
      | arr xs => rfl
    · intro fp hs hnp
      cases fp with
      | nil => rfl
      | cons ep ps =>
          obtain ⟨kp, vp⟩ := ep
          rw [nfFieldsB_cons, Bool.and_eq_true] at hnp
          have hps : sizeOf ps < sizeOf ((kp, vp) :: ps) := sizeOf_lt_cons _ _
          have hvps : sizeOf vp < sizeOf ((kp, vp) :: ps) := by
            simp only [List.cons.sizeOf_spec, Prod.mk.sizeOf_spec]; omega
          have hvpn : vp ≠ Canon.null := by
            intro hc; subst hc; simp [Canon.nfB] at hnp
          rw [applyFields_nil_target, if_neg hvpn]
          rw [(ih (sizeOf vp) (by omega)).2.2.1 vp (le_refl _) hnp.1]
          rw [(ih (sizeOf ps) (by omega)).2.2.2 ps (le_refl _) hnp.2]

theorem applyFields_diffFields {fa fb : CFields}
    (hsa : keySorted fa = true) (hwa : Canon.wfFieldsB fa = true)
    (hsb : keySorted fb = true) (hwb : Canon.wfFieldsB fb = true)
    (hnb : Canon.nfFieldsB fb = true) :
    applyFields fa (diffFields fa fb) = fb :=
  (apply_diff_aux (sizeOf fa + sizeOf fb)).2.1 fa fb (le_refl _) hsa hwa hsb hwb hnb

theorem applyFields_sorted_aux : ∀ n : Nat, ∀ ft fp : CFields,
    sizeOf ft + sizeOf fp ≤ n →
    keySorted ft = true → keySorted fp = true →
    keySorted (applyFields ft fp) = true := by
  intro n
  induction n using Nat.strong_induction_on with
  | _ n ih =>
    intro ft fp hs hst hsp
    cases fp with
    | nil => rw [applyFields_nil_patch]; exact hst
    | cons ep ps =>
        obtain ⟨kp, vp⟩ := ep
        have hps : sizeOf ps < sizeOf ((kp, vp) :: ps) := sizeOf_lt_cons _ _
        have hkp : ∀ e ∈ ps, keyLt kp e.1 = true := (keySorted_cons.mp hsp).1
        cases ft with
        | nil =>
            rw [applyFields_nil_target]
            by_cases hv : vp = .null
            · rw [if_pos hv]
              exact ih (sizeOf ([] : CFields) + sizeOf ps) (by omega) [] ps
                (le_refl _) rfl (keySorted_tail hsp)
            · rw [if_neg hv]
              rw [keySorted_cons]   -- needs iff for goal = true
              refine ⟨?_, ?_⟩
              · intro e he
                have hmem : e.1 ∈ (applyFields [] ps).map (fun x => x.1) :=
                  List.mem_map_of_mem _ he
                rcases mem_keys_applyFields hmem with h2 | h2
                · simp at h2
                · obtain ⟨x, hx, hxe⟩ := List.mem_map.mp h2
                  rw [← hxe]
                  exact hkp x hx
              · exact ih (sizeOf ([] : CFields) + sizeOf ps) (by omega) [] ps
                  (le_refl _) rfl (keySorted_tail hsp)
        | cons et tt =>
            obtain ⟨kt, vt⟩ := et
            have htt : sizeOf tt < sizeOf ((kt, vt) :: tt) := sizeOf_lt_cons _ _
            have hkt : ∀ e ∈ tt, keyLt kt e.1 = true := (keySorted_cons.mp hst).1
            rcases keyLt_trichotomy kt kp with hlt | hgt | heq
            · rw [applyFields_cons_lt _ _ _ _ hlt]
              rw [keySorted_cons]
              refine ⟨?_, ?_⟩
              · intro e he
                have hmem : e.1 ∈ (applyFields tt ((kp, vp) :: ps)).map (fun x => x.1) :=
                  List.mem_map_of_mem _ he
                rcases mem_keys_applyFields hmem with h2 | h2
                · obtain ⟨x, hx, hxe⟩ := List.mem_map.mp h2
                  rw [← hxe]
                  exact hkt x hx
                · obtain ⟨x, hx, hxe⟩ := List.mem_map.mp h2
                  rw [← hxe]
                  rcases List.mem_cons.mp hx with hx | hx
                  · rw [hx]
                    exact hlt
                  · exact keyLt_trans hlt (hkp x hx)
              · exact ih (sizeOf tt + sizeOf ((kp, vp) :: ps)) (by omega) tt
                  ((kp, vp) :: ps) (le_refl _) (keySorted_tail hst) hsp
            · rw [applyFields_cons_gt _ _ _ _ hgt]
              have hall : ∀ e ∈ applyFields ((kt, vt) :: tt) ps, keyLt kp e.1 = true := by
                intro e he
                have hmem : e.1 ∈ (applyFields ((kt, vt) :: tt) ps).map (fun x => x.1) :=
                  List.mem_map_of_mem _ he
                rcases mem_keys_applyFields hmem with h2 | h2
                · obtain ⟨x, hx, hxe⟩ := List.mem_map.mp h2
                  rw [← hxe]
                  rcases List.mem_cons.mp hx with hx | hx
                  · rw [hx]
                    exact hgt
                  · exact keyLt_trans hgt (hkt x hx)
                · obtain ⟨x, hx, hxe⟩ := List.mem_map.mp h2
                  rw [← hxe]
                  exact hkp x hx
              have hrec : keySorted (applyFields ((kt, vt) :: tt) ps) = true :=
                ih (sizeOf ((kt, vt) :: tt) + sizeOf ps) (by omega)
                  ((kt, vt) :: tt) ps (le_refl _) hst (keySorted_tail hsp)
              by_cases hv : vp = .null
              · rw [if_pos hv]
                exact hrec
              · rw [if_neg hv]
                rw [keySorted_cons]
                exact ⟨hall, hrec⟩
            · subst heq
              rw [applyFields_cons_eq]
              have hall : ∀ e ∈ applyFields tt ps, keyLt kt e.1 = true := by
                intro e he
                have hmem : e.1 ∈ (applyFields tt ps).map (fun x => x.1) :=
                  List.mem_map_of_mem _ he
                rcases mem_keys_applyFields hmem with h2 | h2
                · obtain ⟨x, hx, hxe⟩ := List.mem_map.mp h2
                  rw [← hxe]
                  exact hkt x hx
                · obtain ⟨x, hx, hxe⟩ := List.mem_map.mp h2
                  rw [← hxe]
                  exact hkp x hx
              have hrec : keySorted (applyFields tt ps) = true :=
                ih (sizeOf tt + sizeOf ps) (by omega) tt ps (le_refl _)
                  (keySorted_tail hst) (keySorted_tail hsp)
              by_cases hv : vp = .null
              · rw [if_pos hv]
                exact hrec
              · rw [if_neg hv]
                rw [keySorted_cons]
                exact ⟨hall, hrec⟩

theorem applyFields_sorted {ft fp : CFields}
    (hst : keySorted ft = true) (hsp : keySorted fp = true) :
    keySorted (applyFields ft fp) = true :=
  applyFields_sorted_aux (sizeOf ft + sizeOf fp) ft fp (le_refl _) hst hsp

theorem apply_wf_aux : ∀ n : Nat,
    (∀ a p : Canon, sizeOf a + sizeOf p ≤ n → a.wfB = true → p.wfB = true →
      (ApplyDiffPatch a p).wfB = true) ∧
    (∀ ft fp : CFields, sizeOf ft + sizeOf fp ≤ n →
      keySorted ft = true → Canon.wfFieldsB ft = true →
      keySorted fp = true → Canon.wfFieldsB fp = true →
      Canon.wfFieldsB (applyFields ft fp) = true) := by
  intro n
  induction n using Nat.strong_induction_on with
  | _ n ih =>
    refine ⟨?_, ?_⟩
    · intro a p hs hwa hwp
      cases p with
      | obj fp =>
          simp only [Canon.wfB, Bool.and_eq_true] at hwp
          have hfp : sizeOf fp < sizeOf (Canon.obj fp) := by
            simp only [Canon.obj.sizeOf_spec]; omega
          cases a with
          | obj fa =>
              simp only [Canon.wfB, Bool.and_eq_true] at hwa
              have hfa : sizeOf fa < sizeOf (Canon.obj fa) := by
                simp only [Canon.obj.sizeOf_spec]; omega
              show (Canon.obj (applyFields fa fp)).wfB = true
              simp only [Canon.wfB, Bool.and_eq_true]
              exact ⟨applyFields_sorted hwa.1 hwp.1,
                (ih (sizeOf fa + sizeOf fp) (by omega)).2 fa fp (le_refl _)
                  hwa.1 hwa.2 hwp.1 hwp.2⟩
          | null =>
              show (Canon.obj (applyFields [] fp)).wfB = true
              simp only [Canon.wfB, Bool.and_eq_true]
              exact ⟨applyFields_sorted rfl hwp.1,
                (ih (sizeOf ([] : CFields) + sizeOf fp) (by
                  simp only [List.nil.sizeOf_spec]
                  simp only [Canon.null.sizeOf_spec] at hs
                  omega)).2 [] fp (le_refl _) rfl rfl hwp.1 hwp.2⟩
          | bool c =>
              show (Canon.obj (applyFields [] fp)).wfB = true
              simp only [Canon.wfB, Bool.and_eq_true]
              refine ⟨applyFields_sorted rfl hwp.1, ?_⟩
              refine (ih (sizeOf ([] : CFields) + sizeOf fp) ?_).2 [] fp
                (le_refl _) rfl rfl hwp.1 hwp.2
              simp only [List.nil.sizeOf_spec]
              simp only [Canon.bool.sizeOf_spec] at hs
              omega
          | num m =>
              show (Canon.obj (applyFields [] fp)).wfB = true
              simp only [Canon.wfB, Bool.and_eq_true]
              refine ⟨applyFields_sorted rfl hwp.1, ?_⟩
              refine (ih (sizeOf ([] : CFields) + sizeOf fp) ?_).2 [] fp
                (le_refl _) rfl rfl hwp.1 hwp.2
              simp only [List.nil.sizeOf_spec]
              simp only [Canon.num.sizeOf_spec] at hs
              omega
          | str s =>
              show (Canon.obj (applyFields [] fp)).wfB = true
              simp only [Canon.wfB, Bool.and_eq_true]
              refine ⟨applyFields_sorted rfl hwp.1, ?_⟩
              refine (ih (sizeOf ([] : CFields) + sizeOf fp) ?_).2 [] fp
                (le_refl _) rfl rfl hwp.1 hwp.2
              simp only [List.nil.sizeOf_spec]
              simp only [Canon.str.sizeOf_spec] at hs
              omega
          | arr xs =>
              show (Canon.obj (applyFields [] fp)).wfB = true
              simp only [Canon.wfB, Bool.and_eq_true]
              refine ⟨applyFields_sorted rfl hwp.1, ?_⟩
              refine (ih (sizeOf ([] : CFields) + sizeOf fp) ?_).2 [] fp
                (le_refl _) rfl rfl hwp.1 hwp.2
              simp only [List.nil.sizeOf_spec]
              simp only [Canon.arr.sizeOf_spec] at hs
              omega
      | null => cases a <;> exact hwp
      | bool c => cases a <;> exact hwp
      | num m => cases a <;> exact hwp
      | str s => cases a <;> exact hwp
      | arr xs => cases a <;> exact hwp
    · intro ft fp hs hst hwt hsp hwp
      cases fp with
      | nil => rw [applyFields_nil_patch]; exact hwt
      | cons ep ps =>
          obtain ⟨kp, vp⟩ := ep
          rw [wfFieldsB_cons, Bool.and_eq_true] at hwp
          have hps : sizeOf ps < sizeOf ((kp, vp) :: ps) := sizeOf_lt_cons _ _
          have hvps : sizeOf vp < sizeOf ((kp, vp) :: ps) := by
            simp only [List.cons.sizeOf_spec, Prod.mk.sizeOf_spec]; omega
          cases ft with
          | nil =>
              rw [applyFields_nil_target]
              have hrec : Canon.wfFieldsB (applyFields [] ps) = true :=
                (ih (sizeOf ([] : CFields) + sizeOf ps) (by omega)).2 [] ps
                  (le_refl _) rfl rfl (keySorted_tail hsp) hwp.2
              by_cases hv : vp = .null
              · rw [if_pos hv]; exact hrec
              · rw [if_neg hv, wfFieldsB_cons, Bool.and_eq_true]
                refine ⟨?_, hrec⟩
                exact (ih (sizeOf (Canon.null) + sizeOf vp) (by
                  simp only [Canon.null.sizeOf_spec]
                  simp only [List.nil.sizeOf_spec] at hs
                  omega)).1 .null vp (le_refl _) rfl hwp.1
          | cons et tt =>
              obtain ⟨kt, vt⟩ := et
              rw [wfFieldsB_cons, Bool.and_eq_true] at hwt
              have htt : sizeOf tt < sizeOf ((kt, vt) :: tt) := sizeOf_lt_cons _ _
              have hvts : sizeOf vt < sizeOf ((kt, vt) :: tt) := by
                simp only [List.cons.sizeOf_spec, Prod.mk.sizeOf_spec]; omega
              rcases keyLt_trichotomy kt kp with hlt | hgt | heq
              · rw [applyFields_cons_lt _ _ _ _ hlt, wfFieldsB_cons,
                  Bool.and_eq_true]
                exact ⟨hwt.1,
                  (ih (sizeOf tt + sizeOf ((kp, vp) :: ps)) (by omega)).2 tt
                    ((kp, vp) :: ps) (le_refl _) (keySorted_tail hst) hwt.2 hsp
                    (by rw [wfFieldsB_cons, Bool.and_eq_true]
                        exact ⟨hwp.1, hwp.2⟩)⟩
              · rw [applyFields_cons_gt _ _ _ _ hgt]
                have hrec : Canon.wfFieldsB (applyFields ((kt, vt) :: tt) ps) = true :=
                  (ih (sizeOf ((kt, vt) :: tt) + sizeOf ps) (by omega)).2
                    ((kt, vt) :: tt) ps (le_refl _) hst
                    (by rw [wfFieldsB_cons, Bool.and_eq_true]
                        exact ⟨hwt.1, hwt.2⟩)
                    (keySorted_tail hsp) hwp.2
                by_cases hv : vp = .null
                · rw [if_pos hv]; exact hrec
                · rw [if_neg hv, wfFieldsB_cons, Bool.and_eq_true]
                  refine ⟨?_, hrec⟩
                  exact (ih (sizeOf (Canon.null) + sizeOf vp) (by
                    have h1 : (1 : Nat) ≤ sizeOf ((kt, vt) :: tt) := by
                      simp only [List.cons.sizeOf_spec]; omega
                    simp only [Canon.null.sizeOf_spec]
                    omega)).1 .null vp (le_refl _) rfl hwp.1
              · subst heq
                rw [applyFields_cons_eq]
                have hrec : Canon.wfFieldsB (applyFields tt ps) = true :=
                  (ih (sizeOf tt + sizeOf ps) (by omega)).2 tt ps (le_refl _)
                    (keySorted_tail hst) hwt.2 (keySorted_tail hsp) hwp.2
                by_cases hv : vp = .null
                · rw [if_pos hv]; exact hrec
                · rw [if_neg hv, wfFieldsB_cons, Bool.and_eq_true]
                  refine ⟨?_, hrec⟩
                  exact (ih (sizeOf vt + sizeOf vp) (by omega)).1 vt vp
                    (le_refl _) hwt.1 hwp.1

theorem ApplyDiffPatch_wf {a p : Canon} (hwa : a.wfB = true) (hwp : p.wfB = true) :
    (ApplyDiffPatch a p).wfB = true :=
  (apply_wf_aux (sizeOf a + sizeOf p)).1 a p (le_refl _) hwa hwp

theorem serializeFields_sorted {fs : RFields} (h : keySorted fs = true) :
    keySorted (serializeFields fs) = true := by
  rw [keySorted_iff_keys (serializeFields_keys fs)]
  exact h

theorem serialize_wf_aux : ∀ n : Nat,
    (∀ v : Rich, sizeOf v ≤ n → v.wfB = true → (SerializeData v).wfB = true) ∧
    (∀ xs : List Rich, sizeOf xs ≤ n → Rich.wfListB xs = true →
      Canon.wfListB (serializeList xs) = true) ∧
    (∀ fs : RFields, sizeOf fs ≤ n → Rich.wfFieldsB fs = true →
      Canon.wfFieldsB (serializeFields fs) = true) := by
  intro n
  induction n using Nat.strong_induction_on with
  | _ n ih =>
    refine ⟨?_, ?_, ?_⟩
    · intro v hv hw
      cases v with
      | null => rfl
      | bool b => rfl
      | num m => rfl
      | str s => rfl
      | time t => rfl
      | ref p => rfl
      | deleteMarker => rfl
      | arr xs =>
          have hxs : sizeOf xs < sizeOf (Rich.arr xs) := by
            simp only [Rich.arr.sizeOf_spec]; omega
          simp only [Rich.wfB] at hw
          show Canon.wfListB (serializeList xs) = true
          exact (ih (sizeOf xs) (by omega)).2.1 xs (le_refl _) hw
      | obj fs =>
          have hfs : sizeOf fs < sizeOf (Rich.obj fs) := by
            simp only [Rich.obj.sizeOf_spec]; omega
          simp only [Rich.wfB, Bool.and_eq_true] at hw
          show (Canon.obj (serializeFields fs)).wfB = true
          simp only [Canon.wfB, Bool.and_eq_true]
          exact ⟨serializeFields_sorted hw.1,
            (ih (sizeOf fs) (by omega)).2.2 fs (le_refl _) hw.2⟩
    · intro xs hx hw
      cases xs with
      | nil => rfl
      | cons v vs =>
          have h1 : sizeOf v < sizeOf (v :: vs) := by
            simp only [List.cons.sizeOf_spec]; omega
          have h2 : sizeOf vs < sizeOf (v :: vs) := by
            simp only [List.cons.sizeOf_spec]; omega
          rw [show Rich.wfListB (v :: vs) = (v.wfB && Rich.wfListB vs) from rfl,
            Bool.and_eq_true] at hw
          show ((SerializeData v).wfB && Canon.wfListB (serializeList vs)) = true
          rw [Bool.and_eq_true]
          exact ⟨(ih (sizeOf v) (by omega)).1 v (le_refl _) hw.1,
            (ih (sizeOf vs) (by omega)).2.1 vs (le_refl _) hw.2⟩
    · intro fs hf hw
      cases fs with
      | nil => rfl
      | cons e es =>
          obtain ⟨k, v⟩ := e
          have h1 : sizeOf v < sizeOf ((k, v) :: es) := by
            simp only [List.cons.sizeOf_spec, Prod.mk.sizeOf_spec]; omega
          have h2 : sizeOf es < sizeOf ((k, v) :: es) := by
            simp only [List.cons.sizeOf_spec]; omega
          rw [show Rich.wfFieldsB ((k, v) :: es) = (v.wfB && Rich.wfFieldsB es)
            from rfl, Bool.and_eq_true] at hw
          show ((SerializeData v).wfB && Canon.wfFieldsB (serializeFields es)) = true
          rw [Bool.and_eq_true]
          exact ⟨(ih (sizeOf v) (by omega)).1 v (le_refl _) hw.1,
            (ih (sizeOf es) (by omega)).2.2 es (le_refl _) hw.2⟩

theorem serializeFields_wf {fs : RFields} (h : Rich.wfFieldsB fs = true) :
    Canon.wfFieldsB (serializeFields fs) = true :=
  (serialize_wf_aux (sizeOf fs)).2.2 fs (le_refl _) h

theorem serialize_nf_aux : ∀ n : Nat,
    (∀ v : Rich, sizeOf v ≤ n → v.nfB = true → (SerializeData v).nfB = true) ∧
    (∀ xs : List Rich, sizeOf xs ≤ n → Rich.nfListB xs = true →
      Canon.nfListB (serializeList xs) = true) ∧
    (∀ fs : RFields, sizeOf fs ≤ n → Rich.nfFieldsB fs = true →
      Canon.nfFieldsB (serializeFields fs) = true) := by
  intro n
  induction n using Nat.strong_induction_on with
  | _ n ih =>
    refine ⟨?_, ?_, ?_⟩
    · intro v hv hw
      cases v with
      | null => simp [Rich.nfB] at hw
      | bool b => rfl
      | num m => rfl
      | str s => rfl
      | time t => rfl
      | ref p => rfl
      | deleteMarker => rfl
      | arr xs =>
          have hxs : sizeOf xs < sizeOf (Rich.arr xs) := by
            simp only [Rich.arr.sizeOf_spec]; omega
          simp only [Rich.nfB] at hw
          show Canon.nfListB (serializeList xs) = true
          exact (ih (sizeOf xs) (by omega)).2.1 xs (le_refl _) hw
      | obj fs =>
          have hfs : sizeOf fs < sizeOf (Rich.obj fs) := by
            simp only [Rich.obj.sizeOf_spec]; omega
          simp only [Rich.nfB] at hw
          show Canon.nfFieldsB (serializeFields fs) = true
          exact (ih (sizeOf fs) (by omega)).2.2 fs (le_refl _) hw
    · intro xs hx hw
      cases xs with
      | nil => rfl
      | cons v vs =>
          have h1 : sizeOf v < sizeOf (v :: vs) := by
            simp only [List.cons.sizeOf_spec]; omega
          have h2 : sizeOf vs < sizeOf (v :: vs) := by
            simp only [List.cons.sizeOf_spec]; omega
          rw [show Rich.nfListB (v :: vs) = (v.nfB && Rich.nfListB vs) from rfl,
            Bool.and_eq_true] at hw
          show ((SerializeData v).nfB && Canon.nfListB (serializeList vs)) = true
          rw [Bool.and_eq_true]
          exact ⟨(ih (sizeOf v) (by omega)).1 v (le_refl _) hw.1,
            (ih (sizeOf vs) (by omega)).2.1 vs (le_refl _) hw.2⟩
    · intro fs hf hw
      cases fs with
      | nil => rfl
      | cons e es =>
          obtain ⟨k, v⟩ := e
          have h1 : sizeOf v < sizeOf ((k, v) :: es) := by
            simp only [List.cons.sizeOf_spec, Prod.mk.sizeOf_spec]; omega
          have h2 : sizeOf es < sizeOf ((k, v) :: es) := by
            simp only [List.cons.sizeOf_spec]; omega
          rw [show Rich.nfFieldsB ((k, v) :: es) = (v.nfB && Rich.nfFieldsB es)
            from rfl, Bool.and_eq_true] at hw
          show ((SerializeData v).nfB && Canon.nfFieldsB (serializeFields es)) = true
          rw [Bool.and_eq_true]
          exact ⟨(ih (sizeOf v) (by omega)).1 v (le_refl _) hw.1,
            (ih (sizeOf es) (by omega)).2.2 es (le_refl _) hw.2⟩

theorem serializeFields_nf {fs : RFields} (h : Rich.nfFieldsB fs = true) :
    Canon.nfFieldsB (serializeFields fs) = true :=
  (serialize_nf_aux (sizeOf fs)).2.2 fs (le_refl _) h

/-- The structural-patch payload the Unknown/Update path of inferAfter
submits to ApplyDiffPatch (src/change.go lines 131-139): the instruction
payload when an instruction exists and the patch is empty, else the
serialized patch. -/
def afterPayload (c : Change) : Canon :=
  match c.instruction with
  | some ins =>
      if (c.patch.getD []).length = 0 then ins
      else .obj (serializeFields (c.patch.getD []))
  | none => .obj (serializeFields (c.patch.getD []))

/-- The after value the Unknown/Update path of inferAfter computes: the
merge patch applied to the serialized before, deserialized when the
result is a mapping (a non-mapping leaves Go's json.Unmarshal target map
nil). -/
def afterResult (c : Change) : Option RFields :=
  (match ApplyDiffPatch (.obj (serializeFields (c.before.getD [])))
      (afterPayload c) with
    | .obj fs => some fs
    | _ => none).map deserializeFields

theorem inferAfter_set (c : Change) (h : c.command = .MigratorSet) :
    inferAfter c = .ok { c with after := c.patch } := by
  simp [inferAfter, h]

theorem inferAfter_add (c : Change) (h : c.command = .MigratorAdd) :
    inferAfter c = .ok { c with after := c.patch } := by
  simp [inferAfter, h]

theorem inferAfter_delete (c : Change) (h : c.command = .MigratorDelete) :
    inferAfter c = .ok { c with after := some [] } := by
  simp [inferAfter, h]

theorem inferAfter_err (c : Change)
    (hcmd : c.command = .MigratorUnknown ∨ c.command = .MigratorUpdate)
    (hmiss : c.before = none ∨ (c.patch = none ∧ c.instruction = none)) :
    inferAfter c = .error "Need before and patch/instruction to infer after." := by
  rcases hcmd with h | h <;>
    · unfold inferAfter
      rw [h]
      rw [if_pos hmiss]

theorem inferAfter_unknown (c : Change)
    (hcmd : c.command = .MigratorUnknown ∨ c.command = .MigratorUpdate)
    (hcache : c.cache = [])
    (hmiss : ¬ (c.before = none ∨ (c.patch = none ∧ c.instruction = none))) :
    inferAfter c = .ok { c with
      after := afterResult c,
      cache := [("sPatch", serializeFields (c.patch.getD [])),
                ("sBefore", serializeFields (c.before.getD []))] } := by
  rcases hcmd with h | h <;>
    · unfold inferAfter
      rw [h]
      rw [if_neg hmiss]
      simp [fetchCache, hcache, List.lookup, afterResult, afterPayload]
      try exact h

theorem inferCommand_skip (c : Change) (h : ¬ c.command = .MigratorUnknown) :
    inferCommand c = .ok c := by
  simp [inferCommand, h]

theorem inferCommand_err (c : Change) (h1 : c.command = .MigratorUnknown)
    (h2 : c.after = none) :
    inferCommand c = .error "Need after value to infer command." := by
  simp [inferCommand, h1, h2]

theorem inferCommand_set (c : Change) (h1 : c.command = .MigratorUnknown)
    {af : RFields} (h2 : c.after = some af) (h3 : af ≠ []) :
    inferCommand c = .ok { c with command := .MigratorSet } := by
  have h4 : 0 < af.length := List.length_pos.mpr h3
  simp [inferCommand, h1, h2, h4]

theorem inferCommand_delete (c : Change) (h1 : c.command = .MigratorUnknown)
    (h2 : c.after = some []) :
    inferCommand c = .ok { c with command := .MigratorDelete } := by
  simp [inferCommand, h1, h2]

theorem inferPrettyDiff_err (c : Change)
    (h : c.before = none ∨ c.after = none) :
    inferPrettyDiff c = .error "Need before and after value to infer pretty diff." := by
  unfold inferPrettyDiff
  rw [if_pos h]

theorem inferPrettyDiff_ok (c : Change) (hb : ¬ c.before = none)
    (ha : ¬ c.after = none)
    (h1 : c.cache.lookup "serialBefore" = none)
    (h2 : c.cache.lookup "serialAfter" = none) :
    inferPrettyDiff c = .ok { c with
      prettyDiff := PrettyDiff (serializeFields (c.before.getD []))
        (serializeFields (c.after.getD [])),
      cache := ("serialAfter", serializeFields (c.after.getD []))
            :: ("serialBefore", serializeFields (c.before.getD [])) :: c.cache } := by
  unfold inferPrettyDiff
  rw [if_neg (by simp [hb, ha])]
  simp [beforeAfterCache, fetchCache, h1, h2, List.lookup]

theorem inferRollback_err (c : Change)
    (h : c.before = none ∨ c.after = none) :
    inferRollback c = .error "Need before and after value to infer rollback." := by
  unfold inferRollback
  rw [if_pos h]

theorem inferRollback_ok (c : Change) (hb : ¬ c.before = none)
    (ha : ¬ c.after = none) {sb sa : CFields}
    (h1 : c.cache.lookup "serialBefore" = some sb)
    (h2 : c.cache.lookup "serialAfter" = some sa) :
    inferRollback c = .ok { c with
      rollback := some (GetDiffPatch (.obj sa) (.obj sb)) } := by
  unfold inferRollback
  rw [if_neg (by simp [hb, ha])]
  simp [beforeAfterCache, fetchCache, h1, h2]

theorem SolveChange_err1 (c : Change) (e : String)
    (h : inferAfter { c with errState := none } = .error e) :
    SolveChange c = { c with errState := some e } := by
  simp [SolveChange, h]

theorem SolveChange_err2 (c : Change) (c1 : Change) (e : String)
    (h1 : inferAfter { c with errState := none } = .ok c1)
    (h2 : inferCommand c1 = .error e) :
    SolveChange c = { c1 with errState := some e } := by
  simp [SolveChange, h1, h2]

theorem SolveChange_err3 (c : Change) (c1 c2 : Change) (e : String)
    (h1 : inferAfter { c with errState := none } = .ok c1)
    (h2 : inferCommand c1 = .ok c2)
    (h3 : inferPrettyDiff c2 = .error e) :
    SolveChange c = { c2 with errState := some e } := by
  simp [SolveChange, h1, h2, h3]

theorem SolveChange_err4 (c : Change) (c1 c2 c3 : Change) (e : String)
    (h1 : inferAfter { c with errState := none } = .ok c1)
    (h2 : inferCommand c1 = .ok c2)
    (h3 : inferPrettyDiff c2 = .ok c3)
    (h4 : inferRollback c3 = .error e) :
    SolveChange c = { c3 with errState := some e } := by
  simp [SolveChange, h1, h2, h3, h4]

theorem SolveChange_ok (c : Change) (c1 c2 c3 c4 : Change)
    (h1 : inferAfter { c with errState := none } = .ok c1)
    (h2 : inferCommand c1 = .ok c2)
    (h3 : inferPrettyDiff c2 = .ok c3)
    (h4 : inferRollback c3 = .ok c4) :
    SolveChange c = inferPatch c4 := by
  simp [SolveChange, h1, h2, h3, h4]

theorem solve_ok_steps (c : Change) (h : (SolveChange c).errState = none) :
    ∃ c1 c2 c3 c4 : Change,
      inferAfter { c with errState := none } = .ok c1 ∧
      inferCommand c1 = .ok c2 ∧
      inferPrettyDiff c2 = .ok c3 ∧
      inferRollback c3 = .ok c4 ∧
      SolveChange c = inferPatch c4 := by
  cases h1 : inferAfter { c with errState := none } with
  | error e => rw [SolveChange_err1 c e h1] at h; simp at h
  | ok c1 =>
      cases h2 : inferCommand c1 with
      | error e => rw [SolveChange_err2 c c1 e h1 h2] at h; simp at h
      | ok c2 =>
          cases h3 : inferPrettyDiff c2 with
          | error e => rw [SolveChange_err3 c c1 c2 e h1 h2 h3] at h; simp at h
          | ok c3 =>
              cases h4 : inferRollback c3 with
              | error e => rw [SolveChange_err4 c c1 c2 c3 e h1 h2 h3 h4] at h; simp at h
              | ok c4 =>
                  refine ⟨c1, c2, c3, c4, ?_, ?_, ?_, ?_,
                    SolveChange_ok c c1 c2 c3 c4 h1 h2 h3 h4⟩ <;>
                    first
                      | assumption
                      | rfl

theorem fetchCache_docPath (c : Change) (key : String) (data : Option RFields) :
    ((fetchCache c key data).1).docPath = c.docPath := by
  unfold fetchCache; cases c.cache.lookup key <;> simp

theorem fetchCache_before (c : Change) (key : String) (data : Option RFields) :
    ((fetchCache c key data).1).before = c.before := by
  unfold fetchCache; cases c.cache.lookup key <;> simp

theorem fetchCache_patch (c : Change) (key : String) (data : Option RFields) :
    ((fetchCache c key data).1).patch = c.patch := by
  unfold fetchCache; cases c.cache.lookup key <;> simp

theorem fetchCache_instr (c : Change) (key : String) (data : Option RFields) :
    ((fetchCache c key data).1).instruction = c.instruction := by
  unfold fetchCache; cases c.cache.lookup key <;> simp

theorem fetchCache_command (c : Change) (key : String) (data : Option RFields) :
    ((fetchCache c key data).1).command = c.command := by
  unfold fetchCache; cases c.cache.lookup key <;> simp

theorem fetchCache_after (c : Change) (key : String) (data : Option RFields) :
    ((fetchCache c key data).1).after = c.after := by
  unfold fetchCache; cases c.cache.lookup key <;> simp

theorem fetchCache_prettyDiff (c : Change) (key : String) (data : Option RFields) :
    ((fetchCache c key data).1).prettyDiff = c.prettyDiff := by
  unfold fetchCache; cases c.cache.lookup key <;> simp

theorem fetchCache_rollback (c : Change) (key : String) (data : Option RFields) :
    ((fetchCache c key data).1).rollback = c.rollback := by
  unfold fetchCache; cases c.cache.lookup key <;> simp

theorem fetchCache_errState (c : Change) (key : String) (data : Option RFields) :
    ((fetchCache c key data).1).errState = c.errState := by
  unfold fetchCache; cases c.cache.lookup key <;> simp

theorem inferAfter_ok_fields {c c' : Change} (h : inferAfter c = .ok c') :
    c'.docPath = c.docPath ∧ c'.before = c.before ∧ c'.patch = c.patch ∧
    c'.instruction = c.instruction ∧ c'.command = c.command ∧
    c'.prettyDiff = c.prettyDiff ∧ c'.rollback = c.rollback ∧
    c'.errState = c.errState := by
  cases hcmd : c.command with
  | MigratorSet =>
      rw [inferAfter_set c hcmd, Except.ok.injEq] at h
      subst h; simp [hcmd]
  | MigratorAdd =>
      rw [inferAfter_add c hcmd, Except.ok.injEq] at h
      subst h; simp [hcmd]
  | MigratorDelete =>
      rw [inferAfter_delete c hcmd, Except.ok.injEq] at h
      subst h; simp [hcmd]
  | MigratorUnknown =>
      by_cases hmiss : c.before = none ∨ (c.patch = none ∧ c.instruction = none)
      · rw [inferAfter_err c (Or.inl hcmd) hmiss] at h
        exact Except.noConfusion h
      · unfold inferAfter at h
        rw [hcmd] at h
        rw [if_neg hmiss] at h
        obtain ⟨af, h⟩ : ∃ af,
            Except.ok { (fetchCache (fetchCache c "sBefore" c.before).1 "sPatch"
              (fetchCache c "sBefore" c.before).1.patch).1 with after := af }
              = Except.ok c' := ⟨_, h⟩
        rw [Except.ok.injEq] at h
        subst h
        simp [fetchCache_docPath, fetchCache_before, fetchCache_patch,
          fetchCache_instr, fetchCache_command, fetchCache_prettyDiff,
          fetchCache_rollback, fetchCache_errState, hcmd]
  | MigratorUpdate =>
      by_cases hmiss : c.before = none ∨ (c.patch = none ∧ c.instruction = none)
      · rw [inferAfter_err c (Or.inr hcmd) hmiss] at h
        exact Except.noConfusion h
      · unfold inferAfter at h
        rw [hcmd] at h
        rw [if_neg hmiss] at h
        obtain ⟨af, h⟩ : ∃ af,
            Except.ok { (fetchCache (fetchCache c "sBefore" c.before).1 "sPatch"
              (fetchCache c "sBefore" c.before).1.patch).1 with after := af }
              = Except.ok c' := ⟨_, h⟩
        rw [Except.ok.injEq] at h
        subst h
        simp [fetchCache_docPath, fetchCache_before, fetchCache_patch,
          fetchCache_instr, fetchCache_command, fetchCache_prettyDiff,
          fetchCache_rollback, fetchCache_errState, hcmd]

theorem inferCommand_ok_fields {c c' : Change} (h : inferCommand c = .ok c') :
    c'.docPath = c.docPath ∧ c'.before = c.before ∧ c'.patch = c.patch ∧
    c'.instruction = c.instruction ∧ c'.after = c.after ∧
    c'.prettyDiff = c.prettyDiff ∧ c'.rollback = c.rollback ∧
    c'.errState = c.errState ∧ c'.cache = c.cache := by
  unfold inferCommand at h
  repeat any_goals split at h
  all_goals
    first
      | exact Except.noConfusion h
      | (rw [Except.ok.injEq] at h; subst h; simp)

theorem inferCommand_keeps {c c' : Change} (h : inferCommand c = .ok c')
    (hc : ¬ c.command = .MigratorUnknown) : c'.command = c.command := by
  rw [inferCommand_skip c hc] at h
  rw [Except.ok.injEq] at h
  subst h
  rfl

theorem inferPrettyDiff_ok_fields {c c' : Change} (h : inferPrettyDiff c = .ok c') :
    c'.docPath = c.docPath ∧ c'.before = c.before ∧ c'.patch = c.patch ∧
    c'.instruction = c.instruction ∧ c'.after = c.after ∧
    c'.command = c.command ∧ c'.rollback = c.rollback ∧
    c'.errState = c.errState := by
  unfold inferPrettyDiff beforeAfterCache at h
  by_cases hc : (c.before = none ∨ c.after = none)
  · rw [if_pos hc] at h
    exact Except.noConfusion h
  · rw [if_neg hc] at h
    obtain ⟨pd, h⟩ : ∃ pd,
        Except.ok { (fetchCache (fetchCache c "serialBefore" c.before).1 "serialAfter"
          (fetchCache c "serialBefore" c.before).1.after).1 with prettyDiff := pd }
          = Except.ok c' := ⟨_, h⟩
    rw [Except.ok.injEq] at h
    subst h
    simp [fetchCache_docPath, fetchCache_before, fetchCache_patch,
      fetchCache_instr, fetchCache_command, fetchCache_after,
      fetchCache_rollback, fetchCache_errState]

theorem inferRollback_ok_fields {c c' : Change} (h : inferRollback c = .ok c') :
    c'.docPath = c.docPath ∧ c'.before = c.before ∧ c'.patch = c.patch ∧
    c'.instruction = c.instruction ∧ c'.after = c.after ∧
    c'.command = c.command ∧ c'.prettyDiff = c.prettyDiff ∧
    c'.errState = c.errState := by
  unfold inferRollback beforeAfterCache at h
  by_cases hc : (c.before = none ∨ c.after = none)
  · rw [if_pos hc] at h
    exact Except.noConfusion h
  · rw [if_neg hc] at h
    obtain ⟨rb, h⟩ : ∃ rb : Canon,
        Except.ok { (fetchCache (fetchCache c "serialBefore" c.before).1 "serialAfter"
          (fetchCache c "serialBefore" c.before).1.after).1 with rollback := some rb }
          = Except.ok c' := ⟨_, h⟩
    rw [Except.ok.injEq] at h
    subst h
    simp [fetchCache_docPath, fetchCache_before, fetchCache_patch,
      fetchCache_instr, fetchCache_command, fetchCache_after,
      fetchCache_prettyDiff, fetchCache_errState]

theorem inferPatch_fields (c : Change) :
    (inferPatch c).docPath = c.docPath ∧ (inferPatch c).before = c.before ∧
    (inferPatch c).after = c.after ∧ (inferPatch c).instruction = c.instruction ∧
    (inferPatch c).command = c.command ∧ (inferPatch c).prettyDiff = c.prettyDiff ∧
    (inferPatch c).rollback = c.rollback ∧ (inferPatch c).errState = c.errState ∧
    (inferPatch c).cache = c.cache := by
  unfold inferPatch
  split <;> simp

theorem solve_after_eq {c c1 : Change}
    (h1 : inferAfter { c with errState := none } = .ok c1) :
    (SolveChange c).after = c1.after := by
  cases h2 : inferCommand c1 with
  | error e => rw [SolveChange_err2 c c1 e h1 h2]
  | ok c2 =>
      have f2 := inferCommand_ok_fields h2
      cases h3 : inferPrettyDiff c2 with
      | error e =>
          rw [SolveChange_err3 c c1 c2 e h1 h2 h3]
          exact f2.2.2.2.2.1
      | ok c3 =>
          have f3 := inferPrettyDiff_ok_fields h3
          cases h4 : inferRollback c3 with
          | error e =>
              rw [SolveChange_err4 c c1 c2 c3 e h1 h2 h3 h4]
              rw [show ({ c3 with errState := some e } : Change).after = c3.after
                from rfl]
              rw [f3.2.2.2.2.1, f2.2.2.2.2.1]
          | ok c4 =>
              have f4 := inferRollback_ok_fields h4
              rw [SolveChange_ok c c1 c2 c3 c4 h1 h2 h3 h4]
              rw [(inferPatch_fields c4).2.2.1, f4.2.2.2.2.1,
                f3.2.2.2.2.1, f2.2.2.2.2.1]

theorem solve_command_eq {c c1 c2 : Change}
    (h1 : inferAfter { c with errState := none } = .ok c1)
    (h2 : inferCommand c1 = .ok c2) :
    (SolveChange c).command = c2.command := by
  cases h3 : inferPrettyDiff c2 with
  | error e => rw [SolveChange_err3 c c1 c2 e h1 h2 h3]
  | ok c3 =>
      have f3 := inferPrettyDiff_ok_fields h3
      cases h4 : inferRollback c3 with
      | error e =>
          rw [SolveChange_err4 c c1 c2 c3 e h1 h2 h3 h4]
          exact f3.2.2.2.2.2.1
      | ok c4 =>
          have f4 := inferRollback_ok_fields h4
          rw [SolveChange_ok c c1 c2 c3 c4 h1 h2 h3 h4]
          rw [(inferPatch_fields c4).2.2.2.2.1, f4.2.2.2.2.2.1,
            f3.2.2.2.2.2.1]

theorem inferAfter_cache_none {c c' : Change} (h : inferAfter c = .ok c')
    (hc : c.cache = []) :
    c'.cache.lookup "serialBefore" = none ∧ c'.cache.lookup "serialAfter" = none := by
  cases hcmd : c.command with
  | MigratorSet =>
      rw [inferAfter_set c hcmd, Except.ok.injEq] at h
      subst h; simp [hc]
  | MigratorAdd =>
      rw [inferAfter_add c hcmd, Except.ok.injEq] at h
      subst h; simp [hc]
  | MigratorDelete =>
      rw [inferAfter_delete c hcmd, Except.ok.injEq] at h
      subst h; simp [hc]
  | MigratorUnknown =>
      by_cases hmiss : c.before = none ∨ (c.patch = none ∧ c.instruction = none)
      · rw [inferAfter_err c (Or.inl hcmd) hmiss] at h
        exact Except.noConfusion h
      · rw [inferAfter_unknown c (Or.inl hcmd) hc hmiss, Except.ok.injEq] at h
        subst h
        constructor <;> rfl
  | MigratorUpdate =>
      by_cases hmiss : c.before = none ∨ (c.patch = none ∧ c.instruction = none)
      · rw [inferAfter_err c (Or.inr hcmd) hmiss] at h
        exact Except.noConfusion h
      · rw [inferAfter_unknown c (Or.inr hcmd) hc hmiss, Except.ok.injEq] at h
        subst h
        constructor <;> rfl

/-- C7: SolveChange runs inferAfter, inferCommand, inferPrettyDiff,
inferRollback and inferPatch in that fixed order; the first failing step
records its error in errState and all remaining steps are skipped, every
previously-derived field keeping its last value. -/
theorem claimC7_pipeline_fail_closed (c : Change) :
    (∃ e, inferAfter { c with errState := none } = .error e ∧
        SolveChange c = { c with errState := some e }) ∨
    (∃ c1 e, inferAfter { c with errState := none } = .ok c1 ∧
        inferCommand c1 = .error e ∧
        SolveChange c = { c1 with errState := some e }) ∨
    (∃ c1 c2 e, inferAfter { c with errState := none } = .ok c1 ∧
        inferCommand c1 = .ok c2 ∧ inferPrettyDiff c2 = .error e ∧
        SolveChange c = { c2 with errState := some e }) ∨
    (∃ c1 c2 c3 e, inferAfter { c with errState := none } = .ok c1 ∧
        inferCommand c1 = .ok c2 ∧ inferPrettyDiff c2 = .ok c3 ∧
        inferRollback c3 = .error e ∧
        SolveChange c = { c3 with errState := some e }) ∨
    (∃ c1 c2 c3 c4, inferAfter { c with errState := none } = .ok c1 ∧
        inferCommand c1 = .ok c2 ∧ inferPrettyDiff c2 = .ok c3 ∧
        inferRollback c3 = .ok c4 ∧ SolveChange c = inferPatch c4) := by
  cases h1 : inferAfter { c with errState := none } with
  | error e => exact Or.inl ⟨e, rfl, SolveChange_err1 c e h1⟩
  | ok c1 =>
    cases h2 : inferCommand c1 with
    | error e =>
        exact Or.inr (Or.inl ⟨c1, e, rfl, h2, SolveChange_err2 c c1 e h1 h2⟩)
    | ok c2 =>
      cases h3 : inferPrettyDiff c2 with
      | error e =>
          exact Or.inr (Or.inr (Or.inl
            ⟨c1, c2, e, rfl, h2, h3, SolveChange_err3 c c1 c2 e h1 h2 h3⟩))
      | ok c3 =>
        cases h4 : inferRollback c3 with
        | error e =>
            exact Or.inr (Or.inr (Or.inr (Or.inl
              ⟨c1, c2, c3, e, rfl, h2, h3, h4,
                SolveChange_err4 c c1 c2 c3 e h1 h2 h3 h4⟩)))
        | ok c4 =>
            exact Or.inr (Or.inr (Or.inr (Or.inr
              ⟨c1, c2, c3, c4, rfl, h2, h3, h4,
                SolveChange_ok c c1 c2 c3 c4 h1 h2 h3 h4⟩)))

/-- C9: contrary to the claimed contract, pushChange performs no errState
check: on an errored Change it dispatches exactly the database operation
of the corresponding non-errored Change, so partially-derived data is
silently executed; in particular an errored Change whose command is still
Unknown dispatches the destructive DeleteDoc operation. -/
theorem claimC9_push_ignores_error (c : Change)
    (t : Option RFields → Option RFields) (e : String)
    (h : c.errState = some e) :
    pushChange c t = pushChange { c with errState := none } t ∧
    (c.command = Command.MigratorUnknown →
      pushChange c t = DbOp.DeleteDoc c.docPath) := by
  refine ⟨rfl, fun hc => ?_⟩
  simp [pushChange, hc]

/-- C9 witness: a freshly created, never-solved Change carries an error
state, and pushChange dispatches on it exactly as on its cleared copy. -/
theorem claimC9_push_ignores_error_witness :
    (NewChange "d" none (some [("y", Rich.num 2)])
        Command.MigratorUnknown none).errState
      = some "Change has not yet been solved." ∧
    pushChange (NewChange "d" none (some [("y", Rich.num 2)])
        Command.MigratorUnknown none) (fun x => x)
      = pushChange { NewChange "d" none (some [("y", Rich.num 2)])
          Command.MigratorUnknown none with errState := none } (fun x => x) :=
  ⟨rfl, (claimC9_push_ignores_error _ _ _ rfl).1⟩

/-- C9 counterexample: a Change whose resolution failed (errState set) on
which pushChange nevertheless dispatches a destructive database
operation, refuting the claim that no database operation is dispatched
for an errored Change. -/
theorem claimC9_counterexample :
    ¬ (SolveChange (NewChange "d" none none
        Command.MigratorUnknown none)).errState = none ∧
    pushChange (SolveChange (NewChange "d" none none
        Command.MigratorUnknown none)) (fun x => x)
      = DbOp.DeleteDoc "d" := by
  exact ⟨by decide, by decide⟩

/-- C4: for a Change whose command is Set or Add, resolution assigns
after := patch verbatim, and the structural diff/patch primitive is not
reached while inferring after (the shortcut returns first). -/
theorem claimC4_set_add_shortcut (c : Change)
    (h : c.command = Command.MigratorSet ∨ c.command = Command.MigratorAdd) :
    (SolveChange c).after = c.patch ∧ inferAfterUsesDiff c = false := by
  have h1 : inferAfter { c with errState := none }
      = .ok { { c with errState := none } with after := c.patch } := by
    rcases h with h | h
    · exact inferAfter_set _ h
    · exact inferAfter_add _ h
  constructor
  · rw [solve_after_eq h1]
  · rcases h with h | h <;> simp [inferAfterUsesDiff, h]

/-- C4 witness: a concrete Set Change whose resolved after is its patch
verbatim and on which the diff primitive is not reached. -/
theorem claimC4_set_add_shortcut_witness :
    ((NewChange "d" none (some [("foo", Rich.str "bar".data)])
        Command.MigratorSet none).command = Command.MigratorSet ∨
      (NewChange "d" none (some [("foo", Rich.str "bar".data)])
        Command.MigratorSet none).command = Command.MigratorAdd) ∧
    ((SolveChange (NewChange "d" none (some [("foo", Rich.str "bar".data)])
          Command.MigratorSet none)).after
        = (NewChange "d" none (some [("foo", Rich.str "bar".data)])
            Command.MigratorSet none).patch ∧
      inferAfterUsesDiff (NewChange "d" none (some [("foo", Rich.str "bar".data)])
          Command.MigratorSet none) = false) :=
  ⟨Or.inl rfl, claimC4_set_add_shortcut _ (Or.inl rfl)⟩

theorem inferAfter_ok_of_inputs (c : Change)
    (hcmd : c.command = Command.MigratorUnknown ∨ c.command = Command.MigratorUpdate)
    (hmiss : ¬ (c.before = none ∨ (c.patch = none ∧ c.instruction = none))) :
    ∃ c1, inferAfter c = .ok c1 := by
  rcases hcmd with h | h <;>
  · unfold inferAfter
    rw [h]
    rw [if_neg hmiss]
    exact ⟨_, rfl⟩

theorem inferCommand_error_msg {c : Change} {e : String}
    (h : inferCommand c = .error e) :
    e = "Need after value to infer command." := by
  unfold inferCommand at h
  repeat any_goals split at h
  all_goals
    first
      | exact Except.noConfusion h
      | (rw [Except.error.injEq] at h; exact h.symm)

theorem inferPrettyDiff_error_msg {c : Change} {e : String}
    (h : inferPrettyDiff c = .error e) :
    e = "Need before and after value to infer pretty diff." := by
  unfold inferPrettyDiff at h
  by_cases hc : (c.before = none ∨ c.after = none)
  · rw [if_pos hc, Except.error.injEq] at h
    exact h.symm
  · rw [if_neg hc] at h
    exact Except.noConfusion h

theorem inferRollback_error_msg {c : Change} {e : String}
    (h : inferRollback c = .error e) :
    e = "Need before and after value to infer rollback." := by
  unfold inferRollback at h
  by_cases hc : (c.before = none ∨ c.after = none)
  · rw [if_pos hc, Except.error.injEq] at h
    exact h.symm
  · rw [if_neg hc] at h
    exact Except.noConfusion h

/-- C3: corrected precondition of the Unknown path: with command Unknown,
resolution fails with the descriptive missing-inputs error exactly when
before is nil, or the patch is nil and the instruction is empty — the
code tests the patch for nil-ness, not for emptiness as the claim reads;
on that failure after is left untouched, the error is recorded in
errState, and Present renders the error block. -/
theorem claimC3_unknown_requires_inputs (c : Change)
    (hcmd : c.command = Command.MigratorUnknown) :
    ((SolveChange c).errState
        = some "Need before and patch/instruction to infer after."
      ↔ (c.before = none ∨ (c.patch = none ∧ c.instruction = none))) ∧
    ((c.before = none ∨ (c.patch = none ∧ c.instruction = none)) →
      (SolveChange c).after = c.after ∧
      (Present (SolveChange c)).2 =
        "< !!! ERROR STATE !!! >\n".data
          ++ "Need before and patch/instruction to infer after.".data
          ++ "\n".data) := by
  have hfail : ∀ _ : (c.before = none ∨ (c.patch = none ∧ c.instruction = none)),
      SolveChange c
        = { c with errState
              := some "Need before and patch/instruction to infer after." } :=
    fun hmiss =>
      SolveChange_err1 c _ (inferAfter_err _ (Or.inl hcmd) hmiss)
  constructor
  · constructor
    · intro herr
      by_contra hmiss
      obtain ⟨c1, h1⟩ := inferAfter_ok_of_inputs ({ c with errState := none })
        (Or.inl hcmd) hmiss
      have f1 := inferAfter_ok_fields h1
      have he1 : c1.errState = none := f1.2.2.2.2.2.2.2
      cases h2 : inferCommand c1 with
      | error e =>
          have he := inferCommand_error_msg h2
          subst he
          rw [SolveChange_err2 c c1 _ h1 h2] at herr
          exact absurd (Option.some.inj herr) (by decide)
      | ok c2 =>
          have f2 := inferCommand_ok_fields h2
          cases h3 : inferPrettyDiff c2 with
          | error e =>
              have he := inferPrettyDiff_error_msg h3
              subst he
              rw [SolveChange_err3 c c1 c2 _ h1 h2 h3] at herr
              exact absurd (Option.some.inj herr) (by decide)
          | ok c3 =>
              have f3 := inferPrettyDiff_ok_fields h3
              cases h4 : inferRollback c3 with
              | error e =>
                  have he := inferRollback_error_msg h4
                  subst he
                  rw [SolveChange_err4 c c1 c2 c3 _ h1 h2 h3 h4] at herr
                  exact absurd (Option.some.inj herr) (by decide)
              | ok c4 =>
                  have f4 := inferRollback_ok_fields h4
                  rw [SolveChange_ok c c1 c2 c3 c4 h1 h2 h3 h4] at herr
                  rw [(inferPatch_fields c4).2.2.2.2.2.2.2.1,
                    f4.2.2.2.2.2.2.2, f3.2.2.2.2.2.2.2,
                    f2.2.2.2.2.2.2.2.1, he1] at herr
                  exact Option.noConfusion herr
    · intro hmiss
      rw [hfail hmiss]
  · intro hmiss
    rw [hfail hmiss]
    exact ⟨rfl, rfl⟩

/-- C3 witness: scenario D — before nil, patch a mapping, command
Unknown: resolution fails with the missing-inputs error, errState is set
and Present renders the error block. -/
theorem claimC3_unknown_requires_inputs_witness :
    (NewChange "d" none (some [("y", Rich.num 2)])
        Command.MigratorUnknown none).command = Command.MigratorUnknown ∧
    ((NewChange "d" none (some [("y", Rich.num 2)])
        Command.MigratorUnknown none).before = none ∨
      ((NewChange "d" none (some [("y", Rich.num 2)])
          Command.MigratorUnknown none).patch = none ∧
        (NewChange "d" none (some [("y", Rich.num 2)])
          Command.MigratorUnknown none).instruction = none)) ∧
    (SolveChange (NewChange "d" none (some [("y", Rich.num 2)])
        Command.MigratorUnknown none)).errState
      = some "Need before and patch/instruction to infer after." ∧
    ((SolveChange (NewChange "d" none (some [("y", Rich.num 2)])
        Command.MigratorUnknown none)).after
      = (NewChange "d" none (some [("y", Rich.num 2)])
          Command.MigratorUnknown none).after ∧
    (Present (SolveChange (NewChange "d" none (some [("y", Rich.num 2)])
        Command.MigratorUnknown none))).2 =
      "< !!! ERROR STATE !!! >\n".data
        ++ "Need before and patch/instruction to infer after.".data
        ++ "\n".data) :=
  ⟨rfl, Or.inl rfl,
    (claimC3_unknown_requires_inputs (NewChange "d" none
        (some [("y", Rich.num 2)]) Command.MigratorUnknown none) rfl).1.mpr
      (Or.inl rfl),
    (claimC3_unknown_requires_inputs (NewChange "d" none
        (some [("y", Rich.num 2)]) Command.MigratorUnknown none) rfl).2
      (Or.inl rfl)⟩

/-- C3 counterexample: the code tests the patch for nil-ness, not
emptiness — a Change with command Unknown, a present-but-empty patch and
an empty instruction resolves successfully, contradicting the claim that
resolution fails unless the patch or the instruction is non-empty. -/
theorem claimC3_counterexample :
    (NewChange "d" (some [("x", Rich.num 1)]) (some [])
        Command.MigratorUnknown none).command = Command.MigratorUnknown ∧
    ((NewChange "d" (some [("x", Rich.num 1)]) (some [])
        Command.MigratorUnknown none).patch.getD []).length = 0 ∧
    (NewChange "d" (some [("x", Rich.num 1)]) (some [])
        Command.MigratorUnknown none).instruction = none ∧
    (SolveChange (NewChange "d" (some [("x", Rich.num 1)]) (some [])
        Command.MigratorUnknown none)).errState = none := by
  exact ⟨rfl, rfl, rfl, by decide⟩

/-- C10: an Update command takes no shortcut in inferAfter: it is handled
exactly like Unknown — failing with the missing-inputs error when before
is nil or both the patch is nil and the instruction is empty, and
otherwise producing after by applying the structural patch payload (the
instruction when the patch is empty, else the serialized patch) to the
serialized before, exactly as the same Change with command Unknown
would. -/
theorem claimC10_update_like_unknown (c : Change)
    (hcmd : c.command = Command.MigratorUpdate) (hcache : c.cache = []) :
    ((c.before = none ∨ (c.patch = none ∧ c.instruction = none)) →
      inferAfter c = .error "Need before and patch/instruction to infer after." ∧
      inferAfter { c with command := Command.MigratorUnknown }
        = .error "Need before and patch/instruction to infer after.") ∧
    (¬ (c.before = none ∨ (c.patch = none ∧ c.instruction = none)) →
      inferAfter c = .ok { c with
        after := afterResult c,
        cache := [("sPatch", serializeFields (c.patch.getD [])),
                  ("sBefore", serializeFields (c.before.getD []))] } ∧
      inferAfter { c with command := Command.MigratorUnknown }
        = .ok { c with
            command := Command.MigratorUnknown,
            after := afterResult c,
            cache := [("sPatch", serializeFields (c.patch.getD [])),
                      ("sBefore", serializeFields (c.before.getD []))] }) := by
  constructor
  · intro hmiss
    exact ⟨inferAfter_err c (Or.inr hcmd) hmiss,
      inferAfter_err _ (Or.inl rfl) hmiss⟩
  · intro hmiss
    exact ⟨inferAfter_unknown c (Or.inr hcmd) hcache hmiss,
      inferAfter_unknown _ (Or.inl rfl) hcache hmiss⟩

/-- C10 witness: a concrete Update Change with before and patch present
resolves its after through the structural-patch path, as the theorem
states. -/
theorem claimC10_update_like_unknown_witness :
    (NewChange "d" (some [("a", Rich.num 1)]) (some [("b", Rich.num 2)])
        Command.MigratorUpdate none).command = Command.MigratorUpdate ∧
    (NewChange "d" (some [("a", Rich.num 1)]) (some [("b", Rich.num 2)])
        Command.MigratorUpdate none).cache = [] ∧
    ¬ ((NewChange "d" (some [("a", Rich.num 1)]) (some [("b", Rich.num 2)])
          Command.MigratorUpdate none).before = none ∨
        ((NewChange "d" (some [("a", Rich.num 1)]) (some [("b", Rich.num 2)])
            Command.MigratorUpdate none).patch = none ∧
          (NewChange "d" (some [("a", Rich.num 1)]) (some [("b", Rich.num 2)])
            Command.MigratorUpdate none).instruction = none)) ∧
    inferAfter (NewChange "d" (some [("a", Rich.num 1)]) (some [("b", Rich.num 2)])
        Command.MigratorUpdate none)
      = .ok { NewChange "d" (some [("a", Rich.num 1)]) (some [("b", Rich.num 2)])
            Command.MigratorUpdate none with
          after := afterResult (NewChange "d" (some [("a", Rich.num 1)])
            (some [("b", Rich.num 2)]) Command.MigratorUpdate none),
          cache := [("sPatch", serializeFields
              ((NewChange "d" (some [("a", Rich.num 1)]) (some [("b", Rich.num 2)])
                Command.MigratorUpdate none).patch.getD [])),
            ("sBefore", serializeFields
              ((NewChange "d" (some [("a", Rich.num 1)]) (some [("b", Rich.num 2)])
                Command.MigratorUpdate none).before.getD []))] } :=
  ⟨rfl, rfl, by decide,
    ((claimC10_update_like_unknown _ rfl rfl).2 (by decide)).1⟩

/-- C2: corrected round trip of the serialization layer: deserialize
inverts serialize on every sentinel-free rich tree — any mix of
primitives, nested mappings and sequences, timestamps, references and
delete markers whose plain strings do not themselves take a sentinel
form; the unrestricted round trip of the claim is refuted by a plain
string that collides with the timestamp sentinel. -/
theorem claimC2_roundtrip_plain (v : Rich) (h : v.plainB = true) :
    DeSerializeData (SerializeData v) = v :=
  deserialize_serialize v h

/-- C2 witness: the round trip on a tree mixing primitives, a nested
sequence, a timestamp, a reference and a delete marker. -/
theorem claimC2_roundtrip_plain_witness :
    (Rich.obj [("d", Rich.deleteMarker), ("r", Rich.ref "fig/fog".data),
      ("s", Rich.arr [Rich.num 1, Rich.str "ok".data, Rich.bool true]),
      ("t", Rich.time "2023-05-13T13:44:40.522Z".data)]).plainB = true ∧
    DeSerializeData (SerializeData
        (Rich.obj [("d", Rich.deleteMarker), ("r", Rich.ref "fig/fog".data),
          ("s", Rich.arr [Rich.num 1, Rich.str "ok".data, Rich.bool true]),
          ("t", Rich.time "2023-05-13T13:44:40.522Z".data)]))
      = Rich.obj [("d", Rich.deleteMarker), ("r", Rich.ref "fig/fog".data),
          ("s", Rich.arr [Rich.num 1, Rich.str "ok".data, Rich.bool true]),
          ("t", Rich.time "2023-05-13T13:44:40.522Z".data)] :=
  ⟨by decide, claimC2_roundtrip_plain _ (by decide)⟩

/-- C2 counterexample: a representable rich tree containing the plain
string form of the timestamp sentinel does not round trip: serialization
leaves the string as is and deserialization reads it back as a
timestamp. -/
theorem claimC2_counterexample :
    ¬ DeSerializeData (SerializeData (Rich.str "<time>x<time>".data))
        = Rich.str "<time>x<time>".data := by decide

/-- C8: the sentinel leak of Present: on a successfully resolved Change
whose diff carries a serialized timestamp, the rendered diff body still
contains the documented sentinel delimiter of section 6 while the token
Present actually strips never occurs in it, so the value displays in its
tagged form rather than as its bare textual payload. -/
theorem claimC8_sentinel_leak :
    (SolveChange (NewChange "d" (some [("t", Rich.time "23".data)])
        (some [("t", Rich.time "24".data)]) Command.MigratorUpdate none)).errState
      = none ∧
    hasSub timeTag (Present (SolveChange (NewChange "d"
        (some [("t", Rich.time "23".data)])
        (some [("t", Rich.time "24".data)]) Command.MigratorUpdate none))).2
      = true ∧
    hasSub "__timestamp__".data (Present (SolveChange (NewChange "d"
        (some [("t", Rich.time "23".data)])
        (some [("t", Rich.time "24".data)]) Command.MigratorUpdate none))).2
      = false := by
  exact ⟨by decide, by decide, by decide⟩

/-- C5: if command was Unknown on input and resolution succeeds, the
resolved command is Set exactly when the resolved after mapping is
non-empty and Delete exactly when it is empty; a command supplied as
anything other than Unknown is never changed by resolution. -/
theorem claimC5_command_inference (c : Change) :
    (c.command = Command.MigratorUnknown → (SolveChange c).errState = none →
      (SolveChange c).after ≠ none ∧
      ((SolveChange c).command = Command.MigratorSet ↔
        (SolveChange c).after.getD [] ≠ []) ∧
      ((SolveChange c).command = Command.MigratorDelete ↔
        (SolveChange c).after.getD [] = [])) ∧
    (¬ c.command = Command.MigratorUnknown →
      (SolveChange c).command = c.command) := by
  constructor
  · intro hu hs
    obtain ⟨c1, c2, c3, c4, h1, h2, h3, h4, hS⟩ := solve_ok_steps c hs
    have f1 := inferAfter_ok_fields h1
    have hcu : c1.command = Command.MigratorUnknown := by
      rw [f1.2.2.2.2.1]; exact hu
    have ha := solve_after_eq h1
    have hcmd2 := solve_command_eq h1 h2
    unfold inferCommand at h2
    rw [if_neg (by simp [hcu])] at h2
    by_cases hn : c1.after = none
    · rw [if_pos hn] at h2
      exact Except.noConfusion h2
    · rw [if_neg hn] at h2
      by_cases hlen : 0 < (c1.after.getD []).length
      · rw [if_pos hlen] at h2
        rw [Except.ok.injEq] at h2
        subst h2
        refine ⟨?_, ?_, ?_⟩
        · rw [ha]; exact hn
        · rw [hcmd2, ha]
          constructor
          · intro _ hnil
            rw [hnil] at hlen
            exact absurd hlen (by simp)
          · intro _
            rfl
        · rw [hcmd2, ha]
          constructor
          · intro hd
            exact Command.noConfusion hd
          · intro hnil
            rw [hnil] at hlen
            exact absurd hlen (by simp)
      · rw [if_neg hlen] at h2
        rw [Except.ok.injEq] at h2
        subst h2
        have hnil : c1.after.getD [] = [] := by
          cases hx : c1.after.getD [] with
          | nil => rfl
          | cons a l =>
              rw [hx] at hlen
              exact absurd (by simp) hlen
        refine ⟨?_, ?_, ?_⟩
        · rw [ha]; exact hn
        · rw [hcmd2, ha, hnil]
          simp
        · rw [hcmd2, ha, hnil]
          simp
  · intro hnu
    cases h1 : inferAfter { c with errState := none } with
    | error e =>
        rw [SolveChange_err1 c e h1]
    | ok c1 =>
        have f1 := inferAfter_ok_fields h1
        have hc1 : c1.command = c.command := f1.2.2.2.2.1
        have hnu1 : ¬ c1.command = Command.MigratorUnknown := by
          rw [hc1]; exact hnu
        have h2 : inferCommand c1 = .ok c1 := inferCommand_skip c1 hnu1
        cases h3 : inferPrettyDiff c1 with
        | error e =>
            rw [SolveChange_err3 c c1 c1 e h1 h2 h3]
            exact hc1
        | ok c3 =>
            have f3 := inferPrettyDiff_ok_fields h3
            cases h4 : inferRollback c3 with
            | error e =>
                rw [SolveChange_err4 c c1 c1 c3 e h1 h2 h3 h4]
                rw [show ({ c3 with errState := some e } : Change).command
                  = c3.command from rfl]
                rw [f3.2.2.2.2.2.1]
                exact hc1
            | ok c4 =>
                have f4 := inferRollback_ok_fields h4
                rw [SolveChange_ok c c1 c1 c3 c4 h1 h2 h3 h4]
                rw [(inferPatch_fields c4).2.2.2.2.1, f4.2.2.2.2.2.1,
                  f3.2.2.2.2.2.1]
                exact hc1

/-- C5 witness: an Unknown Change that resolves to a non-empty after gets
command Set, and an Update Change keeps its command through resolution. -/
theorem claimC5_command_inference_witness :
    (NewChange "d" (some [("x", Rich.num 1)]) (some [("y", Rich.num 2)])
        Command.MigratorUnknown none).command = Command.MigratorUnknown ∧
    (SolveChange (NewChange "d" (some [("x", Rich.num 1)]) (some [("y", Rich.num 2)])
        Command.MigratorUnknown none)).errState = none ∧
    (SolveChange (NewChange "d" (some [("x", Rich.num 1)]) (some [("y", Rich.num 2)])
        Command.MigratorUnknown none)).command = Command.MigratorSet ∧
    ¬ (NewChange "d" (some [("a", Rich.num 1)]) (some [("b", Rich.num 2)])
        Command.MigratorUpdate none).command = Command.MigratorUnknown ∧
    (SolveChange (NewChange "d" (some [("a", Rich.num 1)]) (some [("b", Rich.num 2)])
        Command.MigratorUpdate none)).command = Command.MigratorUpdate := by
  refine ⟨rfl, by decide, ?_, by decide, ?_⟩
  · exact ((claimC5_command_inference (NewChange "d" (some [("x", Rich.num 1)])
      (some [("y", Rich.num 2)]) Command.MigratorUnknown none)).1 rfl
        (by decide)).2.1.mpr (by decide)
  · exact (claimC5_command_inference (NewChange "d" (some [("a", Rich.num 1)])
      (some [("b", Rich.num 2)]) Command.MigratorUpdate none)).2 (by decide)

/-- C6: for a Change with an empty input patch whose resolution succeeds:
when the resolved command is Add, Set or Update the resolved patch equals
the resolved after; when it is Delete the patch remains the input patch
(Delete never fills in) and the resolved after is the empty mapping; the
fill-in step itself never fails. -/
theorem claimC6_patch_fill_in (c : Change)
    (h0 : (c.patch.getD []).length = 0)
    (hs : (SolveChange c).errState = none) :
    (((SolveChange c).command = Command.MigratorAdd ∨
        (SolveChange c).command = Command.MigratorSet ∨
        (SolveChange c).command = Command.MigratorUpdate) →
      (SolveChange c).patch = (SolveChange c).after) ∧
    ((SolveChange c).command = Command.MigratorDelete →
      (SolveChange c).patch = c.patch ∧ (SolveChange c).after = some []) := by
  obtain ⟨c1, c2, c3, c4, h1, h2, h3, h4, hS⟩ := solve_ok_steps c hs
  have f1 := inferAfter_ok_fields h1
  have f2 := inferCommand_ok_fields h2
  have f3 := inferPrettyDiff_ok_fields h3
  have f4 := inferRollback_ok_fields h4
  have hp4 : c4.patch = c.patch := by
    rw [f4.2.2.1, f3.2.2.1, f2.2.2.1]
    exact f1.2.2.1
  have ha4 : c4.after = c1.after := by
    rw [f4.2.2.2.2.1, f3.2.2.2.2.1]
    exact f2.2.2.2.2.1
  have hcmd4 : c4.command = c2.command := by
    rw [f4.2.2.2.2.2.1]
    exact f3.2.2.2.2.2.1
  have hcS : (SolveChange c).command = c4.command := by
    rw [hS]
    exact (inferPatch_fields c4).2.2.2.2.1
  have hlen4 : (c4.patch.getD []).length = 0 := by rw [hp4]; exact h0
  constructor
  · intro hcmd
    rw [hcS] at hcmd
    have hcond : (c4.patch.getD []).length = 0 ∧
        (c4.command = Command.MigratorAdd ∨ c4.command = Command.MigratorSet ∨
          c4.command = Command.MigratorUpdate) := ⟨hlen4, hcmd⟩
    rw [hS]
    unfold inferPatch
    rw [if_pos hcond]
  · intro hdel
    rw [hcS] at hdel
    have hnotin : ¬ ((c4.patch.getD []).length = 0 ∧
        (c4.command = Command.MigratorAdd ∨ c4.command = Command.MigratorSet ∨
          c4.command = Command.MigratorUpdate)) := by
      rintro ⟨-, hx | hx | hx⟩ <;> rw [hdel] at hx <;> exact Command.noConfusion hx
    have hid : SolveChange c = c4 := by
      rw [hS]
      unfold inferPatch
      rw [if_neg hnotin]
    refine ⟨by rw [hid, hp4], ?_⟩
    rw [hid, ha4]
    by_cases hcu : c1.command = Command.MigratorUnknown
    · unfold inferCommand at h2
      rw [if_neg (by simp [hcu])] at h2
      by_cases hn : c1.after = none
      · rw [if_pos hn] at h2
        exact Except.noConfusion h2
      · rw [if_neg hn] at h2
        by_cases hl : 0 < (c1.after.getD []).length
        · rw [if_pos hl] at h2
          rw [Except.ok.injEq] at h2
          subst h2
          rw [hdel] at hcmd4
          exact absurd hcmd4.symm (by simp)
        · rw [if_neg hl] at h2
          rw [Except.ok.injEq] at h2
          cases hx : c1.after with
          | none => exact absurd hx hn
          | some af =>
              cases af with
              | nil => rfl
              | cons a l =>
                  rw [hx] at hl
                  exact absurd (by simp) hl
    · have h2s : inferCommand c1 = .ok c1 := inferCommand_skip c1 hcu
      rw [h2s, Except.ok.injEq] at h2
      subst h2
      have hc1d : c1.command = Command.MigratorDelete := by
        rw [← hcmd4]
        exact hdel
      have hcd : ({ c with errState := none } : Change).command
          = Command.MigratorDelete := by
        rw [← f1.2.2.2.2.1]
        exact hc1d
      rw [inferAfter_delete _ hcd, Except.ok.injEq] at h1
      rw [← h1]

/-- C6 witness: scenario C — before a singleton mapping, command Delete,
no patch: resolution succeeds, the patch remains empty and the resolved
after is the empty mapping. -/
theorem claimC6_patch_fill_in_witness :
    ((NewChange "d" (some [("a", Rich.num 1)]) none
        Command.MigratorDelete none).patch.getD []).length = 0 ∧
    (SolveChange (NewChange "d" (some [("a", Rich.num 1)]) none
        Command.MigratorDelete none)).errState = none ∧
    ((SolveChange (NewChange "d" (some [("a", Rich.num 1)]) none
        Command.MigratorDelete none)).patch
      = (NewChange "d" (some [("a", Rich.num 1)]) none
          Command.MigratorDelete none).patch ∧
    (SolveChange (NewChange "d" (some [("a", Rich.num 1)]) none
        Command.MigratorDelete none)).after = some []) :=
  ⟨rfl, by decide,
    (claimC6_patch_fill_in (NewChange "d" (some [("a", Rich.num 1)]) none
        Command.MigratorDelete none) rfl (by decide)).2 (by decide)⟩

/-- C1: corrected rollback inversion: for a Change with a fresh cache
whose resolution succeeds and whose before and resolved after mappings
are key-sorted and well-formed, with before additionally null-free (a
null value defeats a merge patch, as the counterexample shows), applying
the derived rollback patch to the serialized resolved after reproduces
the serialized before exactly. -/
theorem claimC1_rollback_inverts (c : Change)
    (hcache : c.cache = [])
    (hs : (SolveChange c).errState = none)
    (hsb : keySorted (c.before.getD []) = true)
    (hwb : Rich.wfFieldsB (c.before.getD []) = true)
    (hnb : Rich.nfFieldsB (c.before.getD []) = true)
    (hsa : keySorted ((SolveChange c).after.getD []) = true)
    (hwa : Rich.wfFieldsB ((SolveChange c).after.getD []) = true) :
    ApplyDiffPatch (.obj (serializeFields ((SolveChange c).after.getD [])))
        ((SolveChange c).rollback.getD .null)
      = .obj (serializeFields (c.before.getD [])) := by
  obtain ⟨c1, c2, c3, c4, h1, h2, h3, h4, hS⟩ := solve_ok_steps c hs
  have f1 := inferAfter_ok_fields h1
  have f2 := inferCommand_ok_fields h2
  have hcn := inferAfter_cache_none h1
    (show ({ c with errState := none } : Change).cache = [] from hcache)
  have hc2c : c2.cache = c1.cache := f2.2.2.2.2.2.2.2.2
  by_cases hbn : c2.before = none ∨ c2.after = none
  · rw [inferPrettyDiff_err c2 hbn] at h3
    exact Except.noConfusion h3
  · push_neg at hbn
    obtain ⟨hb2, ha2⟩ := hbn
    have l1 : c2.cache.lookup "serialBefore" = none := by
      rw [hc2c]; exact hcn.1
    have l2 : c2.cache.lookup "serialAfter" = none := by
      rw [hc2c]; exact hcn.2
    rw [inferPrettyDiff_ok c2 hb2 ha2 l1 l2, Except.ok.injEq] at h3
    subst h3
    have l1s : (("serialAfter", serializeFields (c2.after.getD []))
          :: ("serialBefore", serializeFields (c2.before.getD []))
          :: c2.cache).lookup "serialBefore"
        = some (serializeFields (c2.before.getD [])) := rfl
    have l2s : (("serialAfter", serializeFields (c2.after.getD []))
          :: ("serialBefore", serializeFields (c2.before.getD []))
          :: c2.cache).lookup "serialAfter"
        = some (serializeFields (c2.after.getD [])) := rfl
    rw [inferRollback_ok ({ c2 with
        prettyDiff := PrettyDiff (serializeFields (c2.before.getD []))
          (serializeFields (c2.after.getD [])),
        cache := ("serialAfter", serializeFields (c2.after.getD []))
          :: ("serialBefore", serializeFields (c2.before.getD []))
          :: c2.cache }) hb2 ha2 l1s l2s, Except.ok.injEq] at h4
    subst h4
    have haS : (SolveChange c).after = c2.after := by
      rw [hS, (inferPatch_fields _).2.2.1]
    have hrS : (SolveChange c).rollback
        = some (GetDiffPatch (.obj (serializeFields (c2.after.getD [])))
            (.obj (serializeFields (c2.before.getD [])))) := by
      rw [hS, (inferPatch_fields _).2.2.2.2.2.2.1]
    have hbc : c2.before = c.before := by
      rw [f2.2.1]
      exact f1.2.1
    rw [haS] at hsa hwa
    rw [hrS, haS, hbc]
    show Canon.obj (applyFields (serializeFields (c2.after.getD []))
        (diffFields (serializeFields (c2.after.getD []))
          (serializeFields (c.before.getD []))))
      = Canon.obj (serializeFields (c.before.getD []))
    rw [applyFields_diffFields (serializeFields_sorted hsa)
      (serializeFields_wf hwa) (serializeFields_sorted hsb)
      (serializeFields_wf hwb) (serializeFields_nf hnb)]

/-- C1 witness: a concrete Update Change: applying the derived rollback
patch to the serialized resolved after yields the serialized before. -/
theorem claimC1_rollback_inverts_witness :
    (SolveChange (NewChange "d" (some [("a", Rich.num 1)])
        (some [("b", Rich.num 2)]) Command.MigratorUpdate none)).errState
      = none ∧
    ApplyDiffPatch (.obj (serializeFields
        ((SolveChange (NewChange "d" (some [("a", Rich.num 1)])
          (some [("b", Rich.num 2)]) Command.MigratorUpdate none)).after.getD [])))
        ((SolveChange (NewChange "d" (some [("a", Rich.num 1)])
          (some [("b", Rich.num 2)]) Command.MigratorUpdate none)).rollback.getD .null)
      = .obj (serializeFields
          ((NewChange "d" (some [("a", Rich.num 1)])
            (some [("b", Rich.num 2)]) Command.MigratorUpdate none).before.getD [])) :=
  ⟨by decide,
    claimC1_rollback_inverts (NewChange "d" (some [("a", Rich.num 1)])
        (some [("b", Rich.num 2)]) Command.MigratorUpdate none)
      rfl (by decide) (by decide) (by decide) (by decide) (by decide) (by decide)⟩

/-- C1 counterexample: the unrestricted claim fails — a before document
holding a null value resolves successfully, but applying the derived
rollback patch to the resolved after removes the key instead of restoring
its null value, so before is not reproduced. -/
theorem claimC1_counterexample :
    (SolveChange (NewChange "d" (some [("a", Rich.null)])
        (some [("a", Rich.num 1)]) Command.MigratorUpdate none)).errState
      = none ∧
    ¬ (ApplyDiffPatch (.obj (serializeFields
        ((SolveChange (NewChange "d" (some [("a", Rich.null)])
          (some [("a", Rich.num 1)]) Command.MigratorUpdate none)).after.getD [])))
        ((SolveChange (NewChange "d" (some [("a", Rich.null)])
          (some [("a", Rich.num 1)]) Command.MigratorUpdate none)).rollback.getD .null)
      = .obj (serializeFields
          ((NewChange "d" (some [("a", Rich.null)])
            (some [("a", Rich.num 1)]) Command.MigratorUpdate none).before.getD []))) := by
  exact ⟨by decide, by decide⟩
